import Mathlib

/-!
# Verification of the `learnet` userspace IPv4 stack (package `ipstack`)

This file gives a shallow embedding, in Lean 4, of the parts of the
`ipstack` Go package that the specification's claims are about:

* the internet checksum (`checksum.go`: `InternetChecksum`, and
  `ip.go`: `IPv4Checksum`),
* IPv4 packet accessors (`ip.go`: `Valid`, `Header`, `Payload`,
  `FragmentInfo`, `SetFragmentInfo`, `SetChecksum`, ...),
* UDP-over-IPv4 checksum (`udp.go` revision with checksums:
  `UDP4Packet.Checksum`),
* the IPv4 fragmenter and defragmenter (`ip_frag.go`),
* the TCP receive assembler and delivery buffer (`tcp_recv.go`),
* the TCP write buffer (`tcp_send.go`: `tcpWriteBuffer.Handle`),
* the basic port allocator (`PortAllocator`).

Packets are byte lists (`List Nat`, each entry `< 256` where relevant).
Go `uint32`/`uint16` arithmetic is modelled over `Nat` with explicit
reduction modulo `2^32` / `2^16`.  The large fixed-size assembler arrays
of `tcp_recv.go` are modelled as functions `Nat → _` indexed by buffer
position, with the fixed capacity `65536` kept explicit.  Stateful Go
methods become state-passing functions; the `panic` in
`tcpRecvBuffer.Put` is modelled by an `Option` result.
-/

/-! ## Machine-integer helpers -/

/-- Reduction modulo `2^32`, the semantics of Go `uint32` values. -/
def u32 (n : Nat) : Nat := n % 4294967296

/-- Go `uint32` subtraction `a - b` (wrapping). -/
def u32sub (a b : Nat) : Nat := (a + (4294967296 - b % 4294967296)) % 4294967296

/-- Go `byte(x)` truncation. -/
def u8 (n : Nat) : Nat := n % 256

theorem u32_lt (n : Nat) : u32 n < 4294967296 := Nat.mod_lt _ (by norm_num)

theorem u32_of_lt {n : Nat} (h : n < 4294967296) : u32 n = n := Nat.mod_eq_of_lt h

theorem u32sub_lt (a b : Nat) : u32sub a b < 4294967296 := Nat.mod_lt _ (by norm_num)

/-- Wrapping subtraction of values in range: the usual two cases. -/
theorem u32sub_eq (a b : Nat) (ha : a < 4294967296) (hb : b < 4294967296) :
    u32sub a b = if b ≤ a then a - b else a + (4294967296 - b) := by
  unfold u32sub
  rw [Nat.mod_eq_of_lt hb]
  split
  · next h =>
    have : a + (4294967296 - b) = (a - b) + 4294967296 := by omega
    rw [this, Nat.add_mod_right]
    exact Nat.mod_eq_of_lt (by omega)
  · next h =>
    exact Nat.mod_eq_of_lt (by omega)

/-! ## Internet checksum (`checksum.go` / `ip.go`)

`InternetChecksum` and `IPv4Checksum` both fold 16-bit big-endian words
into a `uint32` accumulator, then fold the carries and complement.  They
differ only in how they treat a trailing odd byte: `InternetChecksum`
adds `uint32(data[0]) << 8` while `IPv4Checksum` adds `uint32(data[0])`.
-/

/-- The word-summing loop shared by both checksums, with the odd-byte
tail of `InternetChecksum` (`sum += uint32(data[0]) << 8`).  The
accumulator wraps at `2^32` exactly as the Go `uint32` does. -/
def checksumSumHi (sum : Nat) : List Nat → Nat
  | [] => sum
  | [a] => u32 (sum + ((a <<< 8)))
  | a :: b :: rest => checksumSumHi (u32 (sum + ((a <<< 8) ||| b))) rest

/-- The word-summing loop with the odd-byte tail of `IPv4Checksum`
(`sum += uint32(data[0])`, no shift). -/
def checksumSumLo (sum : Nat) : List Nat → Nat
  | [] => sum
  | [a] => u32 (sum + a)
  | a :: b :: rest => checksumSumLo (u32 (sum + ((a <<< 8) ||| b))) rest

/-- One step of Go's carry-folding loop body. -/
def carryStep (sum : Nat) : Nat := (sum % 65536) + (sum / 65536)

/-- Fuel-driven version of the loop
`for (sum >> 16) != 0 { sum = (sum & 0xffff) + (sum >> 16) }`.
Each iteration strictly decreases the accumulator while it is `≥ 2^16`,
so fuel equal to the starting accumulator always suffices
(`foldCarry_eq` below proves the fuel plays no role). -/
def foldCarryAux : Nat → Nat → Nat
  | 0, sum => sum
  | fuel + 1, sum => if 65536 ≤ sum then foldCarryAux fuel (carryStep sum) else sum

/-- Go's carry-folding loop. -/
def foldCarry (sum : Nat) : Nat := foldCarryAux sum sum

theorem carryStep_lt {sum : Nat} (h : 65536 ≤ sum) : carryStep sum < sum := by
  unfold carryStep
  have h1 : 1 ≤ sum / 65536 := (Nat.one_le_div_iff (by norm_num)).2 h
  have h2 : sum % 65536 + 65536 * (sum / 65536) = sum := Nat.mod_add_div _ _
  omega

theorem foldCarryAux_small {sum : Nat} (h : ¬ 65536 ≤ sum) :
    ∀ fuel, foldCarryAux fuel sum = sum
  | 0 => rfl
  | fuel + 1 => by simp [foldCarryAux, h]

theorem foldCarryAux_congr : ∀ sum f1 f2, sum ≤ f1 → sum ≤ f2 →
    foldCarryAux f1 sum = foldCarryAux f2 sum := by
  intro sum
  induction sum using Nat.strong_induction_on with
  | _ sum ih =>
    intro f1 f2 h1 h2
    by_cases hs : 65536 ≤ sum
    · obtain ⟨g1, rfl⟩ : ∃ g, f1 = g + 1 := ⟨f1 - 1, by omega⟩
      obtain ⟨g2, rfl⟩ : ∃ g, f2 = g + 1 := ⟨f2 - 1, by omega⟩
      simp only [foldCarryAux, hs, if_true]
      have hc := carryStep_lt hs
      exact ih (carryStep sum) hc _ _ (by omega) (by omega)
    · rw [foldCarryAux_small hs, foldCarryAux_small hs]

/-- The fuel-driven `foldCarry` satisfies exactly the recurrence of the
Go loop, so it is a faithful model of it. -/
theorem foldCarry_eq (sum : Nat) :
    foldCarry sum = if 65536 ≤ sum then foldCarry (carryStep sum) else sum := by
  by_cases h : 65536 ≤ sum
  · obtain ⟨s, rfl⟩ : ∃ s, sum = s + 1 := ⟨sum - 1, by omega⟩
    rw [if_pos h, foldCarry, foldCarry]
    show foldCarryAux (s + 1) (s + 1) = _
    simp only [foldCarryAux, h, if_true]
    exact foldCarryAux_congr _ _ _ (by have := carryStep_lt h; omega) (le_refl _)
  · rw [if_neg h, foldCarry, foldCarryAux_small h]

theorem foldCarry_lt (sum : Nat) : foldCarry sum < 65536 := by
  induction sum using Nat.strong_induction_on with
  | _ sum ih =>
    rw [foldCarry_eq]
    by_cases h : 65536 ≤ sum
    · simpa [h] using ih _ (carryStep_lt h)
    · simpa [h] using by omega

/-- `InternetChecksum` from `checksum.go`: ones-complement sum of
big-endian 16-bit words; a trailing odd byte is taken as the high byte
of a final word; the result is the bitwise complement (`^uint16(sum)`,
i.e. `xor` with `0xffff` since the folded sum fits in 16 bits). -/
def InternetChecksum (data : List Nat) : Nat :=
  Nat.xor 65535 (foldCarry (checksumSumHi 0 data))

/-- `IPv4Checksum` from `ip.go`: identical except that a trailing odd
byte is added unshifted (`sum += uint32(data[0])`). -/
def IPv4Checksum (data : List Nat) : Nat :=
  Nat.xor 65535 (foldCarry (checksumSumLo 0 data))

/-- `ICMPChecksum` from `icmp.go` delegates to `IPv4Checksum`. -/
def ICMPChecksum (payload : List Nat) : Nat := IPv4Checksum payload

/-! ## IPv4 packet views (`ip.go`)

An IPv4 packet is a byte list.  `byteAt p i` is Go's `p[i]` (the code
only indexes inside the packet, so the default `0` is never observed on
the paths we verify). -/

/-- Go `p[i]` on a byte slice. -/
def byteAt (p : List Nat) (i : Nat) : Nat := p.getD i 0

/-- Go `p[i] = v` on a byte slice (in-place update, modelled
functionally). -/
def setByte (p : List Nat) (i v : Nat) : List Nat := p.set i v

theorem length_setByte (p : List Nat) (i v : Nat) :
    (setByte p i v).length = p.length := by
  simp [setByte]

theorem byteAt_setByte_self {p : List Nat} {i : Nat} (h : i < p.length) (v : Nat) :
    byteAt (setByte p i v) i = v := by
  simp [byteAt, setByte, List.getD_eq_getElem?_getD, List.getElem?_set_self, h]

theorem byteAt_setByte_ne {p : List Nat} {i j : Nat} (h : i ≠ j) (v : Nat) :
    byteAt (setByte p i v) j = byteAt p j := by
  simp [byteAt, setByte, List.getD_eq_getElem?_getD, List.getElem?_set_ne h]

theorem byteAt_append_left {p q : List Nat} {i : Nat} (h : i < p.length) :
    byteAt (p ++ q) i = byteAt p i := by
  simp [byteAt, List.getD_eq_getElem?_getD, List.getElem?_append_left h]

/-- `IPv4Packet.Valid` from `ip.go`. -/
def IPv4Valid (p : List Nat) : Bool :=
  if p.length < 20 then false
  else if byteAt p 0 >>> 4 ≠ 4 then false
  else
    let size := (byteAt p 0 &&& 0xf) * 4
    if size < 20 ∨ p.length < size then false
    else true

/-- The header size in bytes: `int(i[0]&0xf) * 4`. -/
def IPv4HeaderLen (p : List Nat) : Nat := (byteAt p 0 &&& 0xf) * 4

/-- `IPv4Packet.Header`: the leading `IPv4HeaderLen` bytes. -/
def IPv4Header (p : List Nat) : List Nat := p.take (IPv4HeaderLen p)

/-- `IPv4Packet.Payload`: everything after the header. -/
def IPv4Payload (p : List Nat) : List Nat := p.drop (IPv4HeaderLen p)

/-- `IPv4Packet.SourceAddr`: bytes 12–15. -/
def IPv4SourceAddr (p : List Nat) : List Nat := (p.drop 12).take 4

/-- `IPv4Packet.DestAddr`: bytes 16–19. -/
def IPv4DestAddr (p : List Nat) : List Nat := (p.drop 16).take 4

/-- `IPv4Packet.Identification`: bytes 4–5, big-endian. -/
def IPv4Identification (p : List Nat) : Nat :=
  (byteAt p 4 <<< 8) ||| byteAt p 5

/-- `IPv4Packet.Checksum`: the internet checksum of the header. -/
def IPv4PacketChecksum (p : List Nat) : Nat := InternetChecksum (IPv4Header p)

/-- `IPv4Packet.SetChecksum`: zero bytes 10–11, recompute, store
big-endian. -/
def IPv4SetChecksum (p : List Nat) : List Nat :=
  let p := setByte (setByte p 10 0) 11 0
  let checksum := IPv4PacketChecksum p
  setByte (setByte p 10 (checksum >>> 8)) 11 (u8 checksum)

/-- `IPv4Packet.FragmentInfo` from `ip.go` as present in the source:
`dontFrag = i[6]&0x80`, `moreFrags = i[6]&0x40`,
`fragOffset = (i[6]&0x1f)<<8 | i[7]`. -/
def IPv4FragmentInfo (p : List Nat) : Bool × Bool × Nat :=
  (decide (byteAt p 6 &&& 0x80 ≠ 0),
   decide (byteAt p 6 &&& 0x40 ≠ 0),
   ((byteAt p 6 &&& 0x1f) <<< 8) ||| byteAt p 7)

/-- `IPv4Packet.SetFragmentInfo` from `ip.go`: clears bytes 6–7, then
ORs in `0x80` for don't-fragment, `0x40` for more-fragments, and the
13-bit offset. -/
def IPv4SetFragmentInfo (p : List Nat) (dontFrag moreFrags : Bool) (fragOffset : Nat) :
    List Nat :=
  let b6 := (if dontFrag then 0x80 else 0) |||
            ((if moreFrags then 0x40 else 0) ||| (u8 (fragOffset >>> 8) &&& 0x1f))
  setByte (setByte p 6 b6) 7 (u8 fragOffset)

/-- Modelled from the spec: `IPv4Packet.SetTotalLength` is referenced
by `ip_frag.go` but its definition is not among the source files; per
the spec, fragmentation and reassembly recompute the total length so
that `total_length == header_len + payload_len`, i.e. the 16-bit
big-endian field at bytes 2–3 is set to the packet's byte length. -/
def IPv4SetTotalLength (p : List Nat) : List Nat :=
  setByte (setByte p 2 (u8 (p.length >>> 8))) 3 (u8 p.length)

/-! ## UDP over IPv4 (`udp.go` revision with checksums) -/

def ProtocolNumberUDP : Nat := 17

/-- `UDP4Packet.Header`: the first 8 bytes of the IP payload. -/
def UDP4Header (u : List Nat) : List Nat := (IPv4Payload u).take 8

/-- `UDP4Packet.Payload`: the IP payload after the UDP header. -/
def UDP4Payload (u : List Nat) : List Nat := (IPv4Payload u).drop 8

/-- `UDPHeader.Length()`: 16-bit big-endian field number 2 (bytes 4–5
of the UDP header). -/
def UDPHeaderLengthField (hdr : List Nat) : Nat :=
  (byteAt hdr 4 <<< 8) ||| byteAt hdr 5

/-- `UDP4Packet.Valid`. -/
def UDP4Valid (u : List Nat) : Bool :=
  IPv4Valid u && decide (8 ≤ (IPv4Payload u).length) &&
    decide (UDPHeaderLengthField (UDP4Header u) =
      (UDP4Header u).length + (UDP4Payload u).length)

/-- `UDP4Packet.Checksum` exactly as the source builds the
pseudo-header buffer (`pseudoPacket`): 12 zeroed bytes receive the
source address at offset 0, the **source** address again at offset 4
(`copy(pseudoPacket[4:], IPv4Packet(u).SourceAddr())`), the protocol
at offset 9 and the big-endian UDP length at offsets 10–11; the UDP
header and payload follow.  (The method assumes a valid packet, so the
source address is exactly 4 bytes.) -/
def UDP4Checksum (u : List Nat) : Nat :=
  let udpLen := (IPv4Payload u).length
  InternetChecksum
    (IPv4SourceAddr u ++ IPv4SourceAddr u ++
      [0, ProtocolNumberUDP, u8 (udpLen >>> 8), u8 udpLen] ++ IPv4Payload u)

/-- The UDP pseudo-header as the specification words it:
`src(4) ‖ dst(4) ‖ 0 ‖ proto ‖ length(2 BE)` followed by the transport
bytes.  This definition follows the spec, for comparison with
`UDP4Checksum` above, which follows the source. -/
def udp4PseudoHeaderSpec (u : List Nat) : List Nat :=
  let udpLen := (IPv4Payload u).length
  IPv4SourceAddr u ++ IPv4DestAddr u ++
    [0, ProtocolNumberUDP, u8 (udpLen >>> 8), u8 udpLen] ++ IPv4Payload u

/-! ## Basic port allocator -/

/-- The occupancy array `Used [0x10000]bool`, as a function on port
numbers (only indices `< 0x10000` are ever consulted). -/
structure BasicPortAllocator where
  used : Nat → Bool

/-- Pointwise update of a function, modelling an array store. -/
def updateFn {α : Type} (f : Nat → α) (i : Nat) (v : α) : Nat → α :=
  fun j => if j = i then v else f j

/-- The scan `for i := 0xffff; i >= 0; i--` of `AllocAny`: the first
unused port counting down from `i`. -/
def allocAnyFrom (used : Nat → Bool) : Nat → Option Nat
  | 0 => if used 0 then none else some 0
  | i + 1 => if used (i + 1) then allocAnyFrom used i else some (i + 1)

/-- `basicPortAllocator.AllocAny`: returns the chosen port and the new
state, or `none` for the "no free ports" error. -/
def AllocAny (b : BasicPortAllocator) : Option (Nat × BasicPortAllocator) :=
  match allocAnyFrom b.used 0xffff with
  | some p => some (p, ⟨updateFn b.used p true⟩)
  | none => none

/-- `basicPortAllocator.Free`: `none` models the out-of-range and
"port is not in use" errors (in both cases the Go method leaves the
state untouched). -/
def PortFree (b : BasicPortAllocator) (port : Nat) : Option BasicPortAllocator :=
  if 0x10000 ≤ port then none
  else if b.used port then some ⟨updateFn b.used port false⟩
  else none

/-! ## TCP write buffer (`tcp_send.go`) -/

/-- `tcpWriteBuffer`. -/
structure TcpWriteBuffer where
  sequence : Nat
  sendEOF : Bool
  sentEOF : Bool
  buffer : List Nat
deriving DecidableEq

/-- `tcpWriteBuffer.Remaining`. -/
def Remaining (t : TcpWriteBuffer) : Nat :=
  if t.sendEOF && !t.sentEOF then 1 else t.buffer.length

/-- `tcpWriteBuffer.Handle`: process an acknowledgement number. -/
def WriteBufferHandle (t : TcpWriteBuffer) (ack : Nat) : TcpWriteBuffer :=
  let offset := u32sub ack t.sequence
  if Remaining t < offset then t
  else if offset = Remaining t then
    { t with sequence := u32 (t.sequence + Remaining t), sentEOF := t.sendEOF,
             buffer := [] }
  else
    { t with sequence := u32 (t.sequence + offset), buffer := t.buffer.drop offset }

/-! ## Checksum equivalence lemmas -/

theorem checksumSum_eq_even : ∀ (sum : Nat) (data : List Nat), data.length % 2 = 0 →
    checksumSumHi sum data = checksumSumLo sum data
  | _, [], _ => rfl
  | _, [_], h => by simp at h
  | sum, a :: b :: rest, h => by
    rw [checksumSumHi, checksumSumLo]
    exact checksumSum_eq_even _ rest
      (by simp only [List.length_cons] at h ⊢; omega)

/-- C9 (counterexample): on the odd-length input `[1]`,
`InternetChecksum` (which shifts the trailing byte into the high
position) and `IPv4Checksum` (which adds it unshifted) disagree:
`0xfeff` versus `0xfffe`. -/
theorem internetChecksum_ipv4Checksum_odd_ne :
    InternetChecksum [1] = 0xfeff ∧ IPv4Checksum [1] = 0xfffe ∧
      InternetChecksum [1] ≠ IPv4Checksum [1] := by
  refine ⟨by decide, by decide, by decide⟩

/-- C9 (amended): `InternetChecksum` and `IPv4Checksum` agree on every
even-length byte sequence (they differ only in the trailing odd byte),
so the ICMP path (`IPv4Checksum`) and the UDP/TCP path
(`InternetChecksum`) compute the same value whenever the data length is
even. -/
theorem internetChecksum_eq_ipv4Checksum_even (data : List Nat)
    (h : data.length % 2 = 0) : InternetChecksum data = IPv4Checksum data := by
  unfold InternetChecksum IPv4Checksum
  rw [checksumSum_eq_even 0 data h]

/-- C9 (witness for the amended theorem): concrete even-length input. -/
theorem internetChecksum_eq_ipv4Checksum_even_witness :
    ([1, 2] : List Nat).length % 2 = 0 ∧ InternetChecksum [1, 2] = IPv4Checksum [1, 2] :=
  ⟨by decide, internetChecksum_eq_ipv4Checksum_even [1, 2] (by decide)⟩

/-- C1 (code bug): on a valid UDP/IPv4 packet from 10.0.0.1:4919 to
10.0.0.2:53 with payload "ping", `UDP4Packet.Checksum` — which copies
the *source* address into both address slots of the pseudo-header
(`copy(pseudoPacket[4:], ...SourceAddr())`) — differs from the internet
checksum of the pseudo-header prescribed by the claim
(`src ‖ dst ‖ 0 ‖ proto ‖ len`). -/
theorem udp4Checksum_pseudoHeader_bug :
    UDP4Valid [0x45,0,0,32, 0,0, 0,0, 64,17, 0,0, 10,0,0,1, 10,0,0,2,
      0x13,0x37, 0x00,0x35, 0,12, 0,0, 0x70,0x69,0x6e,0x67] = true ∧
    UDP4Checksum [0x45,0,0,32, 0,0, 0,0, 64,17, 0,0, 10,0,0,1, 10,0,0,2,
      0x13,0x37, 0x00,0x35, 0,12, 0,0, 0x70,0x69,0x6e,0x67] ≠
      InternetChecksum (udp4PseudoHeaderSpec
        [0x45,0,0,32, 0,0, 0,0, 64,17, 0,0, 10,0,0,1, 10,0,0,2,
         0x13,0x37, 0x00,0x35, 0,12, 0,0, 0x70,0x69,0x6e,0x67]) := by
  refine ⟨by decide, by decide⟩

/-- C2 (code bug): on a valid IPv4 packet whose header byte 6 is
`0x40` — the RFC 791 don't-fragment bit named by the claim —
`FragmentInfo` reports `dontFrag = false` and `moreFrags = true`,
because the source reads DF at `0x80` and MF at `0x40`; and
`SetFragmentInfo true false 0` writes `0x80` rather than `0x40` into
byte 6. -/
theorem ipv4FragmentInfo_bits_bug :
    IPv4Valid [0x45,0,0,20, 0,0, 0x40,0, 64,1, 0,0, 10,0,0,1, 10,0,0,2] = true ∧
    IPv4FragmentInfo [0x45,0,0,20, 0,0, 0x40,0, 64,1, 0,0, 10,0,0,1, 10,0,0,2] =
      (false, true, 0) ∧
    byteAt (IPv4SetFragmentInfo
      [0x45,0,0,20, 0,0, 0x40,0, 64,1, 0,0, 10,0,0,1, 10,0,0,2] true false 0) 6 =
      0x80 := by
  refine ⟨by decide, by decide, by decide⟩

/-! ## Port allocator lemmas and claim C7 -/

theorem allocAnyFrom_some_spec : ∀ (i : Nat) (used : Nat → Bool) (p : Nat),
    allocAnyFrom used i = some p →
    p ≤ i ∧ used p = false ∧ ∀ q, p < q → q ≤ i → used q = true
  | 0, used, p => by
    intro hs
    by_cases h : used 0 = true
    · rw [allocAnyFrom, if_pos h] at hs
      cases hs
    · rw [allocAnyFrom, if_neg h] at hs
      obtain rfl : (0 : Nat) = p := Option.some.inj hs
      exact ⟨le_refl _, by simpa using h, fun q h1 h2 => by omega⟩
  | i + 1, used, p => by
    intro hs
    by_cases h : used (i + 1) = true
    · rw [allocAnyFrom, if_pos h] at hs
      obtain ⟨h1, h2, h3⟩ := allocAnyFrom_some_spec i used p hs
      refine ⟨by omega, h2, fun q hq1 hq2 => ?_⟩
      rcases Nat.lt_or_ge q (i + 1) with hq | hq
      · exact h3 q hq1 (by omega)
      · have : q = i + 1 := by omega
        subst this; exact h
    · rw [allocAnyFrom, if_neg h] at hs
      obtain rfl : i + 1 = p := Option.some.inj hs
      exact ⟨le_refl _, by simpa using h, fun q h1 h2 => by omega⟩

theorem allocAnyFrom_none_iff : ∀ (i : Nat) (used : Nat → Bool),
    allocAnyFrom used i = none ↔ ∀ q, q ≤ i → used q = true
  | 0, used => by
    by_cases h : used 0 = true
    · rw [allocAnyFrom, if_pos h]
      refine iff_of_true rfl (fun q hq => ?_)
      interval_cases q
      exact h
    · rw [allocAnyFrom, if_neg h]
      refine iff_of_false (by simp) (fun hall => ?_)
      exact h (hall 0 (le_refl _))
  | i + 1, used => by
    by_cases h : used (i + 1) = true
    · rw [allocAnyFrom, if_pos h, allocAnyFrom_none_iff i used]
      constructor
      · intro ha q hq
        rcases Nat.lt_or_ge q (i + 1) with hq' | hq'
        · exact ha q (by omega)
        · have : q = i + 1 := by omega
          subst this; exact h
      · intro ha q hq; exact ha q (by omega)
    · rw [allocAnyFrom, if_neg h]
      refine iff_of_false (by simp) (fun ha => ?_)
      exact h (ha (i + 1) (le_refl _))

/-- C7: `AllocAny` returns the highest-indexed unused port and marks it
used, failing exactly when all `0x10000` ports are used; it never
returns a port that is marked used (hence never the same port twice
without an intervening `Free`); and `Free` of a port that is not marked
used returns an error (`none`), leaving no successor state. -/
theorem basicPortAllocator_spec (b : BasicPortAllocator) (p : Nat) :
    (∀ q b', AllocAny b = some (q, b') →
        q < 0x10000 ∧ b.used q = false ∧
        (∀ r, q < r → r < 0x10000 → b.used r = true) ∧
        b'.used q = true ∧ (∀ r, r ≠ q → b'.used r = b.used r)) ∧
    (AllocAny b = none ↔ ∀ q, q < 0x10000 → b.used q = true) ∧
    (b.used p = true → ∀ b', AllocAny b ≠ some (p, b')) ∧
    (b.used p = false → PortFree b p = none) := by
  refine ⟨?_, ?_, ?_, ?_⟩
  · intro q b' hs
    cases halloc : allocAnyFrom b.used 0xffff with
    | none => rw [AllocAny, halloc] at hs; cases hs
    | some r =>
      rw [AllocAny, halloc] at hs
      obtain ⟨h1, h2⟩ : r = q ∧ (⟨updateFn b.used r true⟩ : BasicPortAllocator) = b' := by
        have := Option.some.inj hs
        exact ⟨congrArg Prod.fst this, congrArg Prod.snd this⟩
      subst h1; subst h2
      obtain ⟨hle, hfree, habove⟩ := allocAnyFrom_some_spec _ _ _ halloc
      refine ⟨by omega, hfree, fun r h1 h2 => habove r h1 (by omega), ?_, ?_⟩
      · simp [updateFn]
      · intro r hr; simp [updateFn, hr]
  · cases halloc : allocAnyFrom b.used 0xffff with
    | none =>
      rw [AllocAny, halloc]
      simp only [true_iff]
      intro q hq
      exact (allocAnyFrom_none_iff _ _).1 halloc q (by omega)
    | some r =>
      rw [AllocAny, halloc]
      refine iff_of_false (by simp) (fun hall => ?_)
      obtain ⟨hle, hfree, _⟩ := allocAnyFrom_some_spec _ _ _ halloc
      rw [hall r (by omega)] at hfree
      cases hfree
  · intro hused b' hs
    cases halloc : allocAnyFrom b.used 0xffff with
    | none => rw [AllocAny, halloc] at hs; cases hs
    | some r =>
      rw [AllocAny, halloc] at hs
      have hr : r = p := congrArg Prod.fst (Option.some.inj hs)
      subst hr
      obtain ⟨_, hfree, _⟩ := allocAnyFrom_some_spec _ _ _ halloc
      rw [hused] at hfree
      cases hfree
  · intro hfree
    unfold PortFree
    split
    · rfl
    · rw [hfree]
      simp

/-- C7 (witness): freeing the unused port 5 of the empty allocator is
an error. -/
theorem basicPortAllocator_spec_witness :
    (BasicPortAllocator.mk (fun _ => false)).used 5 = false ∧
      PortFree ⟨fun _ => false⟩ 5 = none :=
  ⟨rfl, (basicPortAllocator_spec ⟨fun _ => false⟩ 5).2.2.2 rfl⟩

/-- C6: for every write-buffer state and every ack number, `Handle`
with circular offset `ack − sequence (mod 2^32)` leaves the state
unchanged when the offset exceeds `Remaining`; when the offset equals
`Remaining` it advances the sequence by `Remaining`, clears the buffer
and turns a pending EOF (`sendEOF`) into a sent one (`sentEOF`); and
otherwise it advances the sequence by the offset and removes the first
`offset` bytes from the buffer. -/
theorem tcpWriteBuffer_handle_spec (t : TcpWriteBuffer) (ack : Nat) :
    (Remaining t < u32sub ack t.sequence → WriteBufferHandle t ack = t) ∧
    (u32sub ack t.sequence = Remaining t →
      WriteBufferHandle t ack =
        { t with sequence := u32 (t.sequence + Remaining t), buffer := [],
                 sentEOF := t.sendEOF }) ∧
    (u32sub ack t.sequence < Remaining t →
      WriteBufferHandle t ack =
        { t with sequence := u32 (t.sequence + u32sub ack t.sequence),
                 buffer := t.buffer.drop (u32sub ack t.sequence) }) := by
  refine ⟨fun h => ?_, fun h => ?_, fun h => ?_⟩
  · rw [WriteBufferHandle, if_pos h]
  · rw [WriteBufferHandle, if_neg (by omega), if_pos h]
  · rw [WriteBufferHandle, if_neg (by omega), if_neg (by omega)]

/-- C6 (witness): acking 1 of 2 buffered bytes at sequence 1337. -/
theorem tcpWriteBuffer_handle_spec_witness :
    u32sub 1338 (TcpWriteBuffer.mk 1337 false false [104, 105]).sequence <
        Remaining ⟨1337, false, false, [104, 105]⟩ ∧
      WriteBufferHandle ⟨1337, false, false, [104, 105]⟩ 1338 =
        { TcpWriteBuffer.mk 1337 false false [104, 105] with
            sequence := u32 ((1337 : Nat) +
              u32sub 1338 (TcpWriteBuffer.mk 1337 false false [104, 105]).sequence),
            buffer := [104, 105].drop
              (u32sub 1338 (TcpWriteBuffer.mk 1337 false false [104, 105]).sequence) } :=
  ⟨by decide,
   (tcpWriteBuffer_handle_spec ⟨1337, false, false, [104, 105]⟩ 1338).2.2 (by decide)⟩

/-! ## IPv4 fragmenter and defragmenter (`ip_frag.go`) -/

theorem xor_and_seven (m : Nat) : Nat.xor m (m &&& 7) = m - m % 8 := by
  have h7 : m &&& 7 = m % 8 := by simpa using Nat.and_pow_two_sub_one_eq_mod m 3
  obtain ⟨q, r, hlt, rfl⟩ : ∃ q r, r < 8 ∧ m = 2 ^ 3 * q + r :=
    ⟨m / 8, m % 8, by omega, by omega⟩
  have hr : (2 ^ 3 * q + r) % 8 = r := by omega
  rw [h7, hr]
  have hsub : 2 ^ 3 * q + r - r = 2 ^ 3 * q := by omega
  rw [hsub]
  apply Nat.eq_of_testBit_eq
  intro i
  show ((2 ^ 3 * q + r) ^^^ r).testBit i = (2 ^ 3 * q).testBit i
  rw [Nat.testBit_xor, Nat.testBit_mul_pow_two_add _ (by omega), Nat.testBit_mul_pow_two]
  by_cases hi : i < 3
  · simp [hi, show ¬ i ≥ 3 by omega]
  · have hrbit : r.testBit i = false := Nat.testBit_lt_two_pow (by
      have : (8 : Nat) ≤ 2 ^ i := by
        calc (8 : Nat) = 2 ^ 3 := rfl
        _ ≤ 2 ^ i := Nat.pow_le_pow_right (by norm_num) (by omega)
      omega)
    simp [hi, hrbit, show i ≥ 3 by omega]

/-- One fragment of the loop body of `ipv4Fragmenter.Write`: copy the
header, append the payload chunk, then set fragment info, total length
and checksum. -/
def mkFragment (header payload : List Nat) (maxPayload offset : Nat) : List Nat :=
  let chunkSize := min maxPayload (payload.length - offset)
  IPv4SetChecksum (IPv4SetTotalLength
    (IPv4SetFragmentInfo (header ++ ((payload.drop offset).take chunkSize))
      false (decide (chunkSize + offset < payload.length)) (offset >>> 3)))

/-- The fragment-emitting loop
`for len(payload)-offset > 0 { ... offset += chunkSize }`, driven by
fuel.  Fuel `payload.length` always suffices when `maxPayload ≥ 1`
(`fragmentsFromAux_congr`); `ipv4Fragmenter.Write` only enters the loop
after rejecting `maxPayload = 0`. -/
def fragmentsFromAux (header payload : List Nat) (maxPayload : Nat) :
    Nat → Nat → List (List Nat)
  | 0, _ => []
  | fuel + 1, offset =>
    if payload.length - offset = 0 then []
    else
      mkFragment header payload maxPayload offset ::
        fragmentsFromAux header payload maxPayload fuel
          (offset + min maxPayload (payload.length - offset))

/-- The fuel plays no role once it dominates the remaining payload. -/
theorem fragmentsFromAux_congr (header payload : List Nat) {maxPayload : Nat}
    (hmp : 1 ≤ maxPayload) : ∀ f1 f2 offset,
    payload.length - offset ≤ f1 → payload.length - offset ≤ f2 →
    fragmentsFromAux header payload maxPayload f1 offset =
      fragmentsFromAux header payload maxPayload f2 offset := by
  intro f1
  induction f1 using Nat.strong_induction_on with
  | _ f1 ih =>
    intro f2 offset h1 h2
    by_cases hrem : payload.length - offset = 0
    · match f1 with
      | 0 =>
        match f2 with
        | 0 => rfl
        | f2 + 1 => simp [fragmentsFromAux, hrem]
      | f1 + 1 =>
        match f2 with
        | 0 => simp [fragmentsFromAux, hrem]
        | f2 + 1 => simp [fragmentsFromAux, hrem]
    · obtain ⟨g1, rfl⟩ : ∃ g, f1 = g + 1 := ⟨f1 - 1, by omega⟩
      obtain ⟨g2, rfl⟩ : ∃ g, f2 = g + 1 := ⟨f2 - 1, by omega⟩
      simp only [fragmentsFromAux]
      rw [if_neg hrem, if_neg hrem]
      congr 1
      exact ih g1 (by omega) g2 _ (by omega) (by omega)

/-- `ipv4Fragmenter.Write` with the given MTU: the list of packets
pushed to the underlying stream, or the error it returns.  `maxPayload`
is `mtu - len(header)` with the low three bits cleared
(`maxPayload ^= maxPayload & 7`; over `Nat` the subtraction form equals
the source's xor form by `xor_and_seven`). -/
def fragWrite (mtu : Nat) (packet : List Nat) : Except String (List (List Nat)) :=
  if packet.length < mtu then .ok [packet]
  else
    let header := IPv4Header packet
    let payload := IPv4Payload packet
    if (IPv4FragmentInfo packet).1 then .error "write: packet cannot be fragmented"
    else if (IPv4FragmentInfo packet).2.1 || (IPv4FragmentInfo packet).2.2 ≠ 0 then
      .error "write: packet is already fragmented"
    else
      let maxPayload := (mtu - header.length) - ((mtu - header.length) &&& 7)
      if maxPayload = 0 then .error "write: no room for payload"
      else .ok (fragmentsFromAux header payload maxPayload payload.length 0)

/-- `ipv4Reconstruction`: identification, source bytes, and the
fragments sorted by offset. -/
structure Reconstruction where
  ident : Nat
  source : List Nat
  fragments : List (List Nat)

/-- `ipv4Reconstruction.AddFragment`: insert `p` before the first
fragment with a strictly larger offset (Go finds the position with
`sort.Search`; the equal-offset early return there is unreachable
because the search point's offset is strictly larger). -/
def addFragment (fragments : List (List Nat)) (p : List Nat) : List (List Nat) :=
  match fragments with
  | [] => [p]
  | q :: rest =>
    if (IPv4FragmentInfo p).2.2 < (IPv4FragmentInfo q).2.2 then
      if (IPv4FragmentInfo q).2.2 = (IPv4FragmentInfo p).2.2 then q :: rest
      else p :: q :: rest
    else q :: addFragment rest p

/-- `ipv4Reconstruction.Ready`, second half: the fragment offsets (in
bytes, `off << 3`) form a contiguous range starting at `nextOff`. -/
def fragsContiguous (nextOff : Nat) : List (List Nat) → Bool
  | [] => true
  | f :: rest =>
    decide ((IPv4FragmentInfo f).2.2 <<< 3 = nextOff) &&
      fragsContiguous (nextOff + (IPv4Payload f).length) rest

/-- `ipv4Reconstruction.Ready`: the last fragment has `moreFrags`
clear and the offsets are contiguous from 0.  (Go indexes
`Fragments[len-1]`; the list is never empty when called.) -/
def reconReady (fragments : List (List Nat)) : Bool :=
  match fragments.getLast? with
  | none => false
  | some lastFrag => !(IPv4FragmentInfo lastFrag).2.1 && fragsContiguous 0 fragments

/-- `ipv4Reconstruction.Reassemble`: header of the first fragment,
all payloads concatenated, fragment info cleared, length and checksum
recomputed. -/
def reassemble (fragments : List (List Nat)) : List Nat :=
  IPv4SetChecksum (IPv4SetTotalLength (IPv4SetFragmentInfo
    (IPv4Header (fragments.headD []) ++ (fragments.map IPv4Payload).flatten)
    false false 0))

/-- `ipv4Defragmenter.AddPacket` without the wall-clock `dropOld`
sweep: the claims only concern packets delivered before the drop
deadline, so the time-based eviction never fires. -/
def defragAddPacket (recons : List Reconstruction) (p : List Nat) :
    List Reconstruction × Option (List Nat) :=
  match recons with
  | [] =>
    ([⟨IPv4Identification p, IPv4SourceAddr p, [p]⟩], none)
  | recon :: rest =>
    if recon.ident = IPv4Identification p ∧ recon.source = IPv4SourceAddr p then
      let fragments := addFragment recon.fragments p
      if reconReady fragments then (rest, some (reassemble fragments))
      else ({ recon with fragments := fragments } :: rest, none)
    else
      let (rest', out) := defragAddPacket rest p
      (recon :: rest', out)

/-- The incoming filter of `DefragmentIncomingIPv4`: fragments (with
`moreFrags` or a non-zero offset) go to the defragmenter, everything
else passes through. -/
def defragFilter (recons : List Reconstruction) (packet : List Nat) :
    List Reconstruction × Option (List Nat) :=
  if (IPv4FragmentInfo packet).2.1 || (IPv4FragmentInfo packet).2.2 ≠ 0 then
    defragAddPacket recons packet
  else (recons, some packet)

/-- Feed a list of packets through the defragmenting filter, collecting
every packet it lets through or reassembles. -/
def defragRun (recons : List Reconstruction) : List (List Nat) →
    List Reconstruction × List (List Nat)
  | [] => (recons, [])
  | p :: rest =>
    let (recons', out) := defragFilter recons p
    let (recons'', outs) := defragRun recons' rest
    (recons'', (match out with | none => [] | some q => [q]) ++ outs)

/-! ## Bit-level lemmas for the fragment fields -/

theorem lor_eq_add_of_lt {a b : Nat} (n : Nat) (ha : a % 2 ^ n = 0) (hb : b < 2 ^ n) :
    a ||| b = a + b := by
  obtain ⟨q, rfl⟩ : ∃ q, a = 2 ^ n * q :=
    ⟨a / 2 ^ n, (Nat.mul_div_cancel' (Nat.dvd_of_mod_eq_zero ha)).symm⟩
  apply Nat.eq_of_testBit_eq
  intro i
  rw [Nat.testBit_or, Nat.testBit_mul_pow_two_add _ hb, Nat.testBit_mul_pow_two]
  by_cases hi : i < n
  · simp [hi, show ¬ i ≥ n by omega]
  · have hbb : b.testBit i = false := Nat.testBit_lt_two_pow
      (lt_of_lt_of_le hb (Nat.pow_le_pow_right (by norm_num) (by omega)))
    simp [hi, hbb, show i ≥ n by omega]

theorem b6_decomp (df mf : Bool) (x : Nat) (hx : x < 32) :
    ((if df then 128 else 0) ||| ((if mf then 64 else 0) ||| x)) =
      (if df then 128 else 0) + ((if mf then 64 else 0) + x) := by
  have h1 : ((if mf then (64:Nat) else 0) ||| x) = (if mf then 64 else 0) + x := by
    cases mf
    · simp
    · simpa using lor_eq_add_of_lt 6 (by norm_num) (show x < 2 ^ 6 by omega)
  rw [h1]
  have h2 : (if mf then (64:Nat) else 0) + x < 128 := by cases mf <;> simp <;> omega
  cases df
  · simp
  · simpa using lor_eq_add_of_lt 7 (by norm_num) (show _ < 2 ^ 7 from h2)

theorem b6_and_128 (df mf : Bool) (x : Nat) (hx : x < 32) :
    (((if df then 128 else 0) + ((if mf then 64 else 0) + x)) &&& 128) =
      (if df then 128 else 0) := by
  have h2 : (if mf then (64:Nat) else 0) + x < 128 := by cases mf <;> simp <;> omega
  have hpow := Nat.and_two_pow ((if df then 128 else 0) + ((if mf then 64 else 0) + x)) 7
  rw [show (2:Nat) ^ 7 = 128 from rfl] at hpow
  rw [hpow]
  have hb : ((if df then (128:Nat) else 0) + ((if mf then 64 else 0) + x)) =
      2 ^ 7 * (if df then 1 else 0) + ((if mf then 64 else 0) + x) := by
    cases df <;> simp
  rw [hb, Nat.testBit_mul_pow_two_add _ (show _ < 2 ^ 7 from h2)]
  cases df <;> simp

theorem b6_and_64 (df mf : Bool) (x : Nat) (hx : x < 32) :
    (((if df then 128 else 0) + ((if mf then 64 else 0) + x)) &&& 64) =
      (if mf then 64 else 0) := by
  have hpow := Nat.and_two_pow ((if df then 128 else 0) + ((if mf then 64 else 0) + x)) 6
  rw [show (2:Nat) ^ 6 = 64 from rfl] at hpow
  rw [hpow]
  have hb : ((if df then (128:Nat) else 0) + ((if mf then 64 else 0) + x)) =
      2 ^ 6 * ((if df then 2 else 0) + (if mf then 1 else 0)) + x := by
    cases df <;> cases mf <;> simp <;> ring
  rw [hb, Nat.testBit_mul_pow_two_add _ (show x < 2 ^ 6 by omega)]
  have hbit : ((if df then (2:Nat) else 0) + (if mf then 1 else 0)).testBit 0 = mf := by
    cases df <;> cases mf <;> simp [Nat.testBit]
  simp only [hbit, show ¬ (6 : Nat) < 6 by omega, if_false]
  cases mf <;> simp

theorem b6_and_31 (df mf : Bool) (x : Nat) (hx : x < 32) :
    (((if df then 128 else 0) + ((if mf then 64 else 0) + x)) &&& 31) = x := by
  have h31 : ∀ m : Nat, m &&& 31 = m % 32 := fun m => by
    simpa using Nat.and_pow_two_sub_one_eq_mod m 5
  rw [h31]
  cases df <;> cases mf <;> simp <;> omega

/-- Setting and reading back the fragment fields round-trips for any
offset below `2^13` (the field is 13 bits wide). -/
theorem ipv4FragmentInfo_setFragmentInfo (p : List Nat) (df mf : Bool) (off : Nat)
    (hlen : 7 < p.length) (hoff : off < 8192) :
    IPv4FragmentInfo (IPv4SetFragmentInfo p df mf off) = (df, mf, off) := by
  have hx0 : off >>> 8 = off / 256 := by
    rw [Nat.shiftRight_eq_div_pow]
  have hxlt : off / 256 < 32 := by omega
  have hx : u8 (off >>> 8) &&& 31 = off / 256 := by
    rw [hx0]
    have h1 : u8 (off / 256) = off / 256 := Nat.mod_eq_of_lt (by omega)
    rw [h1]
    have h2 : off / 256 &&& 31 = off / 256 % 32 := by
      simpa using Nat.and_pow_two_sub_one_eq_mod (off / 256) 5
    rw [h2]
    omega
  unfold IPv4SetFragmentInfo
  rw [show (0x1f : Nat) = 31 from rfl, show (0x80 : Nat) = 128 from rfl,
    show (0x40 : Nat) = 64 from rfl, hx]
  have hb6 : byteAt (setByte (setByte p 6
      ((if df then 128 else 0) ||| ((if mf then 64 else 0) ||| (off / 256)))) 7
      (u8 off)) 6 =
      (if df then 128 else 0) + ((if mf then 64 else 0) + (off / 256)) := by
    rw [byteAt_setByte_ne (by omega), byteAt_setByte_self (by omega),
      b6_decomp df mf _ hxlt]
  have hb7 : byteAt (setByte (setByte p 6
      ((if df then 128 else 0) ||| ((if mf then 64 else 0) ||| (off / 256)))) 7
      (u8 off)) 7 = u8 off := by
    rw [byteAt_setByte_self]
    rw [length_setByte]
    omega
  unfold IPv4FragmentInfo
  rw [hb6, hb7, b6_and_128 df mf _ hxlt, b6_and_64 df mf _ hxlt, b6_and_31 df mf _ hxlt]
  have hoffeq : ((off / 256) <<< 8) ||| u8 off = off := by
    rw [Nat.shiftLeft_eq, show (2:Nat) ^ 8 = 256 from rfl]
    rw [lor_eq_add_of_lt 8 (by simp [Nat.mul_mod_left]) (by unfold u8; omega)]
    unfold u8
    omega
  rw [hoffeq]
  cases df <;> cases mf <;> simp

/-! ## Packet-transform lemmas for fragmentation -/

theorem length_IPv4SetFragmentInfo (p : List Nat) (df mf : Bool) (off : Nat) :
    (IPv4SetFragmentInfo p df mf off).length = p.length := by
  simp [IPv4SetFragmentInfo, length_setByte]

theorem length_IPv4SetTotalLength (p : List Nat) :
    (IPv4SetTotalLength p).length = p.length := by
  simp [IPv4SetTotalLength, length_setByte]

theorem length_IPv4SetChecksum (p : List Nat) :
    (IPv4SetChecksum p).length = p.length := by
  simp [IPv4SetChecksum, length_setByte]

theorem byteAt_IPv4SetFragmentInfo_ne (p : List Nat) (df mf : Bool) (off : Nat)
    {i : Nat} (h6 : i ≠ 6) (h7 : i ≠ 7) :
    byteAt (IPv4SetFragmentInfo p df mf off) i = byteAt p i := by
  unfold IPv4SetFragmentInfo
  rw [byteAt_setByte_ne (by omega), byteAt_setByte_ne (by omega)]

theorem byteAt_IPv4SetTotalLength_ne (p : List Nat)
    {i : Nat} (h2 : i ≠ 2) (h3 : i ≠ 3) :
    byteAt (IPv4SetTotalLength p) i = byteAt p i := by
  unfold IPv4SetTotalLength
  rw [byteAt_setByte_ne (by omega), byteAt_setByte_ne (by omega)]

theorem byteAt_IPv4SetChecksum_ne (p : List Nat)
    {i : Nat} (h10 : i ≠ 10) (h11 : i ≠ 11) :
    byteAt (IPv4SetChecksum p) i = byteAt p i := by
  unfold IPv4SetChecksum
  rw [byteAt_setByte_ne (by omega), byteAt_setByte_ne (by omega),
    byteAt_setByte_ne (by omega), byteAt_setByte_ne (by omega)]

theorem drop_setByte_of_lt {p : List Nat} {i n : Nat} (h : i < n) (v : Nat) :
    (setByte p i v).drop n = p.drop n := by
  simp [setByte, List.drop_set, h]

theorem drop_IPv4SetFragmentInfo (p : List Nat) (df mf : Bool) (off : Nat)
    {n : Nat} (h : 12 ≤ n) :
    (IPv4SetFragmentInfo p df mf off).drop n = p.drop n := by
  unfold IPv4SetFragmentInfo
  rw [drop_setByte_of_lt (by omega), drop_setByte_of_lt (by omega)]

theorem drop_IPv4SetTotalLength (p : List Nat) {n : Nat} (h : 12 ≤ n) :
    (IPv4SetTotalLength p).drop n = p.drop n := by
  unfold IPv4SetTotalLength
  rw [drop_setByte_of_lt (by omega), drop_setByte_of_lt (by omega)]

theorem drop_IPv4SetChecksum (p : List Nat) {n : Nat} (h : 12 ≤ n) :
    (IPv4SetChecksum p).drop n = p.drop n := by
  unfold IPv4SetChecksum
  rw [drop_setByte_of_lt (by omega), drop_setByte_of_lt (by omega),
    drop_setByte_of_lt (by omega), drop_setByte_of_lt (by omega)]

theorem byteAt_IPv4SetTotalLength_len (p : List Nat) (h : 3 < p.length) :
    byteAt (IPv4SetTotalLength p) 2 = u8 (p.length >>> 8) ∧
      byteAt (IPv4SetTotalLength p) 3 = u8 p.length := by
  unfold IPv4SetTotalLength
  constructor
  · rw [byteAt_setByte_ne (by omega), byteAt_setByte_self (by omega)]
  · rw [byteAt_setByte_self]
    rw [length_setByte]
    omega

theorem fragInfo_IPv4SetChecksum (p : List Nat) :
    IPv4FragmentInfo (IPv4SetChecksum p) = IPv4FragmentInfo p := by
  unfold IPv4FragmentInfo
  rw [byteAt_IPv4SetChecksum_ne p (by omega) (by omega),
    byteAt_IPv4SetChecksum_ne p (by omega) (by omega)]

theorem fragInfo_IPv4SetTotalLength (p : List Nat) :
    IPv4FragmentInfo (IPv4SetTotalLength p) = IPv4FragmentInfo p := by
  unfold IPv4FragmentInfo
  rw [byteAt_IPv4SetTotalLength_ne p (by omega) (by omega),
    byteAt_IPv4SetTotalLength_ne p (by omega) (by omega)]

/-! ## Facts about a single emitted fragment -/

theorem chunk_len (L : List Nat) (c s : Nat) (hs : s < L.length) :
    ((L.drop s).take (min c (L.length - s))).length = min c (L.length - s) := by
  rw [List.length_take, List.length_drop]
  omega

theorem mkFragment_length (H L : List Nat) (c s : Nat) (hs : s < L.length) :
    (mkFragment H L c s).length = H.length + min c (L.length - s) := by
  unfold mkFragment
  rw [length_IPv4SetChecksum, length_IPv4SetTotalLength, length_IPv4SetFragmentInfo,
    List.length_append, chunk_len L c s hs]

theorem mkFragment_byteAt (H L : List Nat) (c s : Nat) {i : Nat} (hi : i < H.length)
    (h2 : i ≠ 2) (h3 : i ≠ 3) (h6 : i ≠ 6) (h7 : i ≠ 7) (h10 : i ≠ 10) (h11 : i ≠ 11) :
    byteAt (mkFragment H L c s) i = byteAt H i := by
  unfold mkFragment
  rw [byteAt_IPv4SetChecksum_ne _ h10 h11, byteAt_IPv4SetTotalLength_ne _ h2 h3,
    byteAt_IPv4SetFragmentInfo_ne _ _ _ _ h6 h7, byteAt_append_left hi]

theorem mkFragment_headerLen (H L : List Nat) (c s : Nat)
    (hwf : (byteAt H 0 &&& 0xf) * 4 = H.length) (hH : 20 ≤ H.length) :
    IPv4HeaderLen (mkFragment H L c s) = H.length := by
  unfold IPv4HeaderLen
  rw [mkFragment_byteAt H L c s (by omega) (by omega) (by omega) (by omega) (by omega)
    (by omega) (by omega), hwf]

theorem mkFragment_payload (H L : List Nat) (c s : Nat)
    (hwf : (byteAt H 0 &&& 0xf) * 4 = H.length) (hH : 20 ≤ H.length) :
    IPv4Payload (mkFragment H L c s) = (L.drop s).take (min c (L.length - s)) := by
  unfold IPv4Payload
  rw [mkFragment_headerLen H L c s hwf hH]
  unfold mkFragment
  rw [drop_IPv4SetChecksum _ (by omega), drop_IPv4SetTotalLength _ (by omega),
    drop_IPv4SetFragmentInfo _ _ _ _ (by omega), List.drop_left]

theorem mkFragment_fragInfo (H L : List Nat) (c s : Nat)
    (hH : 20 ≤ H.length) (hs : s < L.length) (hsmall : L.length < 65536) :
    IPv4FragmentInfo (mkFragment H L c s) =
      (false, decide (min c (L.length - s) + s < L.length), s >>> 3) := by
  unfold mkFragment
  rw [fragInfo_IPv4SetChecksum, fragInfo_IPv4SetTotalLength,
    ipv4FragmentInfo_setFragmentInfo _ _ _ _
      (by rw [List.length_append]; omega)
      (by rw [Nat.shiftRight_eq_div_pow]; omega)]

theorem mkFragment_lenBytes (H L : List Nat) (c s : Nat) (hH : 20 ≤ H.length)
    (hs : s < L.length) :
    byteAt (mkFragment H L c s) 2 = u8 ((H.length + min c (L.length - s)) >>> 8) ∧
      byteAt (mkFragment H L c s) 3 = u8 (H.length + min c (L.length - s)) := by
  unfold mkFragment
  have hlen : (IPv4SetFragmentInfo (H ++ ((L.drop s).take (min c (L.length - s))))
      false (decide (min c (L.length - s) + s < L.length)) (s >>> 3)).length =
      H.length + min c (L.length - s) := by
    rw [length_IPv4SetFragmentInfo, List.length_append, chunk_len L c s hs]
  obtain ⟨ha, hb⟩ := byteAt_IPv4SetTotalLength_len
    (IPv4SetFragmentInfo (H ++ ((L.drop s).take (min c (L.length - s))))
      false (decide (min c (L.length - s) + s < L.length)) (s >>> 3))
    (by rw [hlen]; omega)
  rw [hlen] at ha hb
  constructor
  · rw [byteAt_IPv4SetChecksum_ne _ (by omega) (by omega), ha]
  · rw [byteAt_IPv4SetChecksum_ne _ (by omega) (by omega), hb]

theorem mkFragment_source (H L : List Nat) (c s : Nat) (hH : 20 ≤ H.length) :
    IPv4SourceAddr (mkFragment H L c s) = (H.drop 12).take 4 := by
  unfold IPv4SourceAddr mkFragment
  rw [drop_IPv4SetChecksum _ (by omega), drop_IPv4SetTotalLength _ (by omega),
    drop_IPv4SetFragmentInfo _ _ _ _ (by omega),
    List.drop_append_of_le_length (by omega),
    List.take_append_of_le_length (by rw [List.length_drop]; omega)]

theorem mkFragment_ident (H L : List Nat) (c s : Nat) (hH : 20 ≤ H.length) :
    IPv4Identification (mkFragment H L c s) = IPv4Identification H := by
  unfold IPv4Identification
  rw [mkFragment_byteAt H L c s (by omega) (by omega) (by omega) (by omega) (by omega)
      (by omega) (by omega),
    mkFragment_byteAt H L c s (by omega) (by omega) (by omega) (by omega) (by omega)
      (by omega) (by omega)]

/-! ## Facts about the emitted fragment list -/

theorem fragAux_nil (H L : List Nat) (c : Nat) (fuel s : Nat)
    (h : L.length - s = 0) : fragmentsFromAux H L c fuel s = [] := by
  match fuel with
  | 0 => rfl
  | fuel + 1 => rw [fragmentsFromAux, if_pos h]

theorem fragAux_payloads (H L : List Nat) (c : Nat)
    (hwf : (byteAt H 0 &&& 0xf) * 4 = H.length) (hH : 20 ≤ H.length)
    (hc : 1 ≤ c) :
    ∀ fuel s, L.length - s ≤ fuel →
    ((fragmentsFromAux H L c fuel s).map IPv4Payload).flatten = L.drop s := by
  intro fuel
  induction fuel with
  | zero =>
    intro s h
    rw [fragAux_nil H L c 0 s (by omega)]
    simp [List.drop_eq_nil_of_le (by omega : L.length ≤ s)]
  | succ fuel ih =>
    intro s h
    by_cases hrem : L.length - s = 0
    · rw [fragAux_nil H L c _ s hrem]
      simp [List.drop_eq_nil_of_le (by omega : L.length ≤ s)]
    · rw [fragmentsFromAux, if_neg hrem]
      rw [List.map_cons, List.flatten_cons,
        mkFragment_payload H L c s hwf hH,
        ih (s + min c (L.length - s)) (by omega)]
      rw [show L.drop (s + min c (L.length - s)) =
        (L.drop s).drop (min c (L.length - s)) by rw [List.drop_drop]]
      exact List.take_append_drop _ _

theorem fragAux_mem (H L : List Nat) (c : Nat) :
    ∀ fuel s, ∀ f ∈ fragmentsFromAux H L c fuel s,
      ∃ t, s ≤ t ∧ t < L.length ∧ f = mkFragment H L c t := by
  intro fuel
  induction fuel with
  | zero => intro s f hf; cases hf
  | succ fuel ih =>
    intro s f hf
    by_cases hrem : L.length - s = 0
    · rw [fragAux_nil H L c _ s hrem] at hf
      cases hf
    · rw [fragmentsFromAux, if_neg hrem] at hf
      rcases List.mem_cons.1 hf with rfl | hf'
      · exact ⟨s, le_refl _, by omega, rfl⟩
      · obtain ⟨t, ht1, ht2, ht3⟩ := ih _ f hf'
        exact ⟨t, by omega, ht2, ht3⟩

/-- Sum of the payload lengths of a fragment list. -/
def paySum (frags : List (List Nat)) : Nat :=
  (frags.map (fun q => (IPv4Payload q).length)).sum

theorem paySum_append (xs ys : List (List Nat)) :
    paySum (xs ++ ys) = paySum xs + paySum ys := by
  unfold paySum
  rw [List.map_append, List.sum_append]

theorem fragsContiguous_append (xs ys : List (List Nat)) : ∀ off,
    fragsContiguous off (xs ++ ys) =
      (fragsContiguous off xs && fragsContiguous (off + paySum xs) ys) := by
  induction xs with
  | nil => intro off; simp [fragsContiguous, paySum]
  | cons x xs ih =>
    intro off
    rw [List.cons_append, fragsContiguous, fragsContiguous, ih]
    rw [show off + paySum (x :: xs) =
      off + (IPv4Payload x).length + paySum xs by unfold paySum; simp; ring]
    rw [Bool.and_assoc]

theorem addFragment_append (p : List Nat) : ∀ frags : List (List Nat),
    (∀ q ∈ frags, (IPv4FragmentInfo q).2.2 ≤ (IPv4FragmentInfo p).2.2) →
    addFragment frags p = frags ++ [p] := by
  intro frags
  induction frags with
  | nil => intro _; rfl
  | cons q rest ih =>
    intro h
    rw [addFragment, if_neg (by
      have := h q (List.mem_cons_self q rest)
      omega)]
    rw [ih (fun r hr => h r (List.mem_cons_of_mem q hr))]
    rfl

theorem shiftRight3_eq (s : Nat) : s >>> 3 = s / 8 := by
  rw [Nat.shiftRight_eq_div_pow]

theorem shiftLeft3_eq (x : Nat) : x <<< 3 = x * 8 := by
  rw [Nat.shiftLeft_eq]

theorem paySum_single_mkFragment (H L : List Nat) (c s : Nat)
    (hwf : (byteAt H 0 &&& 0xf) * 4 = H.length) (hH : 20 ≤ H.length)
    (hs : s < L.length) :
    paySum [mkFragment H L c s] = min c (L.length - s) := by
  unfold paySum
  rw [List.map_cons, List.map_nil, List.sum_cons, List.sum_nil,
    mkFragment_payload H L c s hwf hH, chunk_len L c s hs, Nat.add_zero]

theorem contig_single_mkFragment (H L : List Nat) (c s : Nat)
    (hH : 20 ≤ H.length) (hs : s < L.length) (hsmall : L.length < 65536)
    (hs8 : s % 8 = 0) :
    fragsContiguous s [mkFragment H L c s] = true := by
  rw [fragsContiguous, fragsContiguous, mkFragment_fragInfo H L c s hH hs hsmall]
  simp only [Bool.and_true]
  rw [shiftLeft3_eq, shiftRight3_eq]
  simp only [decide_eq_true_eq]
  omega

theorem defragRun_cons_none {recons st : List Reconstruction} {p : List Nat}
    (rest : List (List Nat)) (h : defragFilter recons p = (st, none)) :
    defragRun recons (p :: rest) = defragRun st rest := by
  rw [defragRun, h]
  rfl

theorem defragRun_cons_some {recons st : List Reconstruction} {p q : List Nat}
    (rest : List (List Nat)) (h : defragFilter recons p = (st, some q)) :
    defragRun recons (p :: rest) =
      ((defragRun st rest).1, q :: (defragRun st rest).2) := by
  rw [defragRun, h]
  rfl

theorem reconReady_append_single (frags : List (List Nat)) (f : List Nat) :
    reconReady (frags ++ [f]) =
      (!(IPv4FragmentInfo f).2.1 && fragsContiguous 0 (frags ++ [f])) := by
  unfold reconReady
  rw [List.getLast?_append]
  rfl

theorem defrag_loop (H L : List Nat) (c : Nat)
    (hwf : (byteAt H 0 &&& 0xf) * 4 = H.length) (hH : 20 ≤ H.length)
    (hc8 : c % 8 = 0) (hc : 8 ≤ c) (hsmall : L.length < 65536) :
    ∀ fuel s pre, L.length - s ≤ fuel → 0 < s → s < L.length → s % 8 = 0 →
      (∀ q ∈ pre, (IPv4FragmentInfo q).2.2 ≤ s >>> 3) →
      fragsContiguous 0 pre = true →
      paySum pre = s →
      defragRun [⟨IPv4Identification H, (H.drop 12).take 4, pre⟩]
          (fragmentsFromAux H L c fuel s) =
        ([], [reassemble (pre ++ fragmentsFromAux H L c fuel s)]) := by
  intro fuel
  induction fuel with
  | zero => intro s pre h1 hs0 hsL; omega
  | succ fuel ih =>
    intro s pre h1 hs0 hsL hs8 hord hcontig hpay
    have hrem : ¬ (L.length - s = 0) := by omega
    rw [fragmentsFromAux, if_neg hrem]
    have hinfo := mkFragment_fragInfo H L c s hH hsL hsmall
    have hoffne : ((IPv4FragmentInfo (mkFragment H L c s)).2.1 ||
        decide ((IPv4FragmentInfo (mkFragment H L c s)).2.2 ≠ 0)) = true := by
      rw [hinfo]
      have : s >>> 3 ≠ 0 := by rw [shiftRight3_eq]; omega
      simp [this]
    have hadd : addFragment pre (mkFragment H L c s) =
        pre ++ [mkFragment H L c s] := by
      apply addFragment_append
      intro q hq
      rw [hinfo]
      exact hord q hq
    have hcontig2 : fragsContiguous 0 (pre ++ [mkFragment H L c s]) = true := by
      rw [fragsContiguous_append, hcontig, hpay, Bool.true_and, Nat.zero_add]
      exact contig_single_mkFragment H L c s hH hsL hsmall hs8
    have hlast : reconReady (pre ++ [mkFragment H L c s]) =
        (!(decide (min c (L.length - s) + s < L.length))) := by
      rw [reconReady_append_single, hinfo, hcontig2, Bool.and_true]
    have hmatch : (⟨IPv4Identification H, (H.drop 12).take 4, pre⟩ :
        Reconstruction).ident = IPv4Identification (mkFragment H L c s) ∧
        (⟨IPv4Identification H, (H.drop 12).take 4, pre⟩ :
        Reconstruction).source = IPv4SourceAddr (mkFragment H L c s) :=
      ⟨(mkFragment_ident H L c s hH).symm, (mkFragment_source H L c s hH).symm⟩
    by_cases hfin : min c (L.length - s) + s < L.length
    · -- Not the last fragment: the reconstruction is not ready yet.
      have hchunk : min c (L.length - s) = c := by omega
      have hfilter : defragFilter [⟨IPv4Identification H, (H.drop 12).take 4, pre⟩]
          (mkFragment H L c s) =
          ([⟨IPv4Identification H, (H.drop 12).take 4,
             pre ++ [mkFragment H L c s]⟩], none) := by
        unfold defragFilter
        rw [if_pos hoffne]
        unfold defragAddPacket
        rw [if_pos hmatch, hadd]
        simp [hlast, hfin]
      rw [defragRun_cons_none _ hfilter]
      have hih := ih (s + min c (L.length - s)) (pre ++ [mkFragment H L c s])
        (by omega) (by omega) (by omega) (by omega)
        (by
          intro q hq
          rcases List.mem_append.1 hq with hq' | hq'
          · have := hord q hq'
            rw [shiftRight3_eq] at this ⊢
            omega
          · rcases List.mem_singleton.1 hq' with rfl
            simp only [hinfo]
            rw [shiftRight3_eq, shiftRight3_eq]
            omega)
        hcontig2
        (by rw [paySum_append, hpay,
            paySum_single_mkFragment H L c s hwf hH hsL])
      rw [hih]
      rw [List.append_assoc, List.singleton_append]
    · -- Last fragment: ready fires and the packet is reassembled.
      have hchunk : min c (L.length - s) + s = L.length := by omega
      have hfilter : defragFilter [⟨IPv4Identification H, (H.drop 12).take 4, pre⟩]
          (mkFragment H L c s) =
          ([], some (reassemble (pre ++ [mkFragment H L c s]))) := by
        unfold defragFilter
        rw [if_pos hoffne]
        unfold defragAddPacket
        rw [if_pos hmatch, hadd]
        simp [hlast, hfin]
      have hnil : fragmentsFromAux H L c fuel (s + min c (L.length - s)) = [] :=
        fragAux_nil H L c fuel _ (by omega)
      rw [hnil, defragRun_cons_some _ hfilter]
      rfl

/-! ## The reassembled packet (claim C4) -/

theorem byteAt_take {p : List Nat} {n i : Nat} (h : i < n) :
    byteAt (p.take n) i = byteAt p i := by
  simp [byteAt, List.getD_eq_getElem?_getD, List.getElem?_take, h]

theorem transform_length (q : List Nat) (df mf : Bool) (off : Nat) :
    (IPv4SetChecksum (IPv4SetTotalLength (IPv4SetFragmentInfo q df mf off))).length =
      q.length := by
  rw [length_IPv4SetChecksum, length_IPv4SetTotalLength, length_IPv4SetFragmentInfo]

theorem transform_byteAt (q : List Nat) (df mf : Bool) (off : Nat) {i : Nat}
    (h2 : i ≠ 2) (h3 : i ≠ 3) (h6 : i ≠ 6) (h7 : i ≠ 7) (h10 : i ≠ 10) (h11 : i ≠ 11) :
    byteAt (IPv4SetChecksum (IPv4SetTotalLength (IPv4SetFragmentInfo q df mf off))) i =
      byteAt q i := by
  rw [byteAt_IPv4SetChecksum_ne _ h10 h11, byteAt_IPv4SetTotalLength_ne _ h2 h3,
    byteAt_IPv4SetFragmentInfo_ne _ _ _ _ h6 h7]

theorem transform_lenBytes (q : List Nat) (df mf : Bool) (off : Nat)
    (h : 3 < q.length) :
    byteAt (IPv4SetChecksum (IPv4SetTotalLength (IPv4SetFragmentInfo q df mf off))) 2 =
        u8 (q.length >>> 8) ∧
      byteAt (IPv4SetChecksum (IPv4SetTotalLength (IPv4SetFragmentInfo q df mf off))) 3 =
        u8 q.length := by
  obtain ⟨ha, hb⟩ := byteAt_IPv4SetTotalLength_len (IPv4SetFragmentInfo q df mf off)
    (by rw [length_IPv4SetFragmentInfo]; omega)
  rw [length_IPv4SetFragmentInfo] at ha hb
  exact ⟨by rw [byteAt_IPv4SetChecksum_ne _ (by omega) (by omega), ha],
         by rw [byteAt_IPv4SetChecksum_ne _ (by omega) (by omega), hb]⟩

theorem transform_drop (q : List Nat) (df mf : Bool) (off : Nat) {n : Nat}
    (h : 12 ≤ n) :
    (IPv4SetChecksum (IPv4SetTotalLength (IPv4SetFragmentInfo q df mf off))).drop n =
      q.drop n := by
  rw [drop_IPv4SetChecksum _ h, drop_IPv4SetTotalLength _ h,
    drop_IPv4SetFragmentInfo _ _ _ _ h]

theorem ipv4Valid_bounds {P : List Nat} (h : IPv4Valid P = true) :
    20 ≤ P.length ∧ 20 ≤ IPv4HeaderLen P ∧ IPv4HeaderLen P ≤ P.length := by
  unfold IPv4Valid at h
  by_cases h1 : P.length < 20
  · rw [if_pos h1] at h; cases h
  rw [if_neg h1] at h
  by_cases h2 : byteAt P 0 >>> 4 ≠ 4
  · rw [if_pos h2] at h; cases h
  rw [if_neg h2] at h
  dsimp only [] at h
  by_cases h3 : (byteAt P 0 &&& 0xf) * 4 < 20 ∨ P.length < (byteAt P 0 &&& 0xf) * 4
  · rw [if_pos h3] at h; cases h
  · unfold IPv4HeaderLen
    refine ⟨by omega, by omega, by omega⟩

theorem fragAux_unfold (H L : List Nat) {c : Nat} (hc : 1 ≤ c) (fuel s : Nat)
    (h : L.length - s ≤ fuel) (hs : s < L.length) :
    fragmentsFromAux H L c fuel s =
      mkFragment H L c s ::
        fragmentsFromAux H L c fuel (s + min c (L.length - s)) := by
  obtain ⟨g, rfl⟩ : ∃ g, fuel = g + 1 := ⟨fuel - 1, by omega⟩
  rw [fragmentsFromAux, if_neg (by omega)]
  congr 1
  exact fragmentsFromAux_congr H L hc g (g + 1) _ (by omega) (by omega)

/-- C4 (amended): for every valid IPv4 packet `P` of length at most
65495 whose fragment fields are clear (not a fragment, don't-fragment
unset) and whose total-length field matches its byte length, and every
MTU of at least the header length plus 8: the fragmenter emits a list
of packets which, fed in order to the defragmenting filter, produces
exactly one packet `Q` (leaving no pending reconstruction); `Q` agrees
with `P` on the whole header except the identification, fragment and
checksum fields, and has the same payload. -/
theorem ipv4_fragment_defragment_roundtrip (P : List Nat) (mtu : Nat)
    (hvalid : IPv4Valid P = true)
    (hlen : P.length ≤ 65495)
    (hmtu : IPv4HeaderLen P + 8 ≤ mtu)
    (hfrag : IPv4FragmentInfo P = (false, false, 0))
    (hlenField2 : byteAt P 2 = u8 (P.length >>> 8))
    (hlenField3 : byteAt P 3 = u8 P.length) :
    ∃ fragments Q, fragWrite mtu P = Except.ok fragments ∧
      defragRun [] fragments = ([], [Q]) ∧
      Q.length = P.length ∧
      IPv4HeaderLen Q = IPv4HeaderLen P ∧
      (∀ i, i < IPv4HeaderLen P → i ≠ 4 → i ≠ 5 → i ≠ 6 → i ≠ 7 → i ≠ 10 → i ≠ 11 →
        byteAt Q i = byteAt P i) ∧
      IPv4Payload Q = IPv4Payload P := by
  obtain ⟨h20, hhl20, hhlle⟩ := ipv4Valid_bounds hvalid
  by_cases hsize : P.length < mtu
  · -- Below the MTU the fragmenter and the filter pass `P` through.
    refine ⟨[P], P, ?_, ?_, rfl, rfl, fun i _ _ _ _ _ _ _ => rfl, rfl⟩
    · unfold fragWrite
      rw [if_pos hsize]
    · have hfilterP : defragFilter [] P = ([], some P) := by
        unfold defragFilter
        rw [hfrag]
        simp
      rw [defragRun_cons_some _ hfilterP]
      rfl
  · -- Fragmentation path.
    have hHlen : (IPv4Header P).length = IPv4HeaderLen P := by
      rw [IPv4Header, List.length_take]
      omega
    have hH0 : byteAt (IPv4Header P) 0 = byteAt P 0 := byteAt_take (by omega)
    have hwfH : (byteAt (IPv4Header P) 0 &&& 0xf) * 4 = (IPv4Header P).length := by
      rw [hH0, hHlen]
      rfl
    have hH20 : 20 ≤ (IPv4Header P).length := by omega
    have hLlen : (IPv4Payload P).length = P.length - IPv4HeaderLen P := by
      rw [IPv4Payload, List.length_drop]
    have hand : (mtu - (IPv4Header P).length) &&& 7 =
        (mtu - (IPv4Header P).length) % 8 := by
      simpa using Nat.and_pow_two_sub_one_eq_mod (mtu - (IPv4Header P).length) 3
    obtain ⟨cv, hcv⟩ : ∃ cv, cv =
        (mtu - (IPv4Header P).length) - ((mtu - (IPv4Header P).length) &&& 7) :=
      ⟨_, rfl⟩
    have hc : 8 ≤ cv := by rw [hcv, hand]; omega
    have hc8 : cv % 8 = 0 := by rw [hcv, hand]; omega
    have hfw : fragWrite mtu P = Except.ok
        (fragmentsFromAux (IPv4Header P) (IPv4Payload P) cv
          (IPv4Payload P).length 0) := by
      rw [hcv]
      unfold fragWrite
      rw [if_neg hsize]
      simp only [hfrag]
      rw [if_neg (by simp), if_neg (by simp), if_neg (by rw [hand]; omega)]
    have hLsmall : (IPv4Payload P).length < 65536 := by omega
    have hL1 : 8 ≤ (IPv4Payload P).length := by omega
    have hPsplit : P.length = IPv4HeaderLen P + (IPv4Payload P).length := by omega
    by_cases hone : (IPv4Payload P).length ≤ cv
    · -- A single fragment is emitted; it is not marked as a fragment,
      -- so the defragmenting filter passes it through unchanged.
      have hmin1 : min cv ((IPv4Payload P).length - 0) = (IPv4Payload P).length := by
        omega
      have hfs1 : fragmentsFromAux (IPv4Header P) (IPv4Payload P) cv
          (IPv4Payload P).length 0 =
          [mkFragment (IPv4Header P) (IPv4Payload P) cv 0] := by
        rw [fragAux_unfold (IPv4Header P) (IPv4Payload P) (by omega) _ 0
          (by omega) (by omega)]
        rw [hmin1, Nat.zero_add, fragAux_nil _ _ _ _ _ (by omega)]
      have hinfo1 := mkFragment_fragInfo (IPv4Header P) (IPv4Payload P) cv 0
        hH20 (by omega) hLsmall
      have hfilter1 : defragFilter []
          (mkFragment (IPv4Header P) (IPv4Payload P) cv 0) =
          ([], some (mkFragment (IPv4Header P) (IPv4Payload P) cv 0)) := by
        unfold defragFilter
        rw [if_neg (by simp only [hinfo1]; simp; omega)]
      refine ⟨_, mkFragment (IPv4Header P) (IPv4Payload P) cv 0,
        hfw, ?_, ?_, ?_, ?_, ?_⟩
      · rw [hfs1, defragRun_cons_some _ hfilter1]
        rfl
      · rw [mkFragment_length _ _ _ _ (by omega), hmin1, hHlen]
        omega
      · rw [mkFragment_headerLen _ _ _ _ hwfH hH20, hHlen]
      · intro i hi h4 h5 h6 h7 h10 h11
        by_cases hi2 : i = 2
        · subst hi2
          rw [(mkFragment_lenBytes (IPv4Header P) (IPv4Payload P) cv 0 hH20
            (by omega)).1, hmin1, hlenField2]
          congr 1
          omega
        by_cases hi3 : i = 3
        · subst hi3
          rw [(mkFragment_lenBytes (IPv4Header P) (IPv4Payload P) cv 0 hH20
            (by omega)).2, hmin1, hlenField3]
          congr 1
          omega
        · rw [mkFragment_byteAt _ _ _ _ (by omega) hi2 hi3 h6 h7 h10 h11]
          exact byteAt_take (by omega)
      · rw [mkFragment_payload _ _ _ _ hwfH hH20, hmin1, List.drop_zero,
          List.take_length]
    · -- Several fragments: the defragmenter collects and reassembles.
      have hmin0 : min cv ((IPv4Payload P).length - 0) = cv := by omega
      have hfs2 : fragmentsFromAux (IPv4Header P) (IPv4Payload P) cv
          (IPv4Payload P).length 0 =
          mkFragment (IPv4Header P) (IPv4Payload P) cv 0 ::
            fragmentsFromAux (IPv4Header P) (IPv4Payload P) cv
              (IPv4Payload P).length cv := by
        rw [fragAux_unfold (IPv4Header P) (IPv4Payload P) (by omega) _ 0
          (by omega) (by omega)]
        rw [hmin0, Nat.zero_add]
      have hinfo0 := mkFragment_fragInfo (IPv4Header P) (IPv4Payload P) cv 0
        hH20 (by omega) hLsmall
      have hfilter0 : defragFilter []
          (mkFragment (IPv4Header P) (IPv4Payload P) cv 0) =
          ([⟨IPv4Identification (IPv4Header P), ((IPv4Header P).drop 12).take 4,
             [mkFragment (IPv4Header P) (IPv4Payload P) cv 0]⟩], none) := by
        unfold defragFilter
        rw [if_pos (by simp only [hinfo0]; simp; omega)]
        unfold defragAddPacket
        rw [mkFragment_ident _ _ _ _ hH20, mkFragment_source _ _ _ _ hH20]
      have hloop := defrag_loop (IPv4Header P) (IPv4Payload P) cv hwfH hH20 hc8 hc
        hLsmall (IPv4Payload P).length cv
        [mkFragment (IPv4Header P) (IPv4Payload P) cv 0]
        (by omega) (by omega) (by omega) (by omega)
        (by
          intro q hq
          rcases List.mem_singleton.1 hq with rfl
          simp only [hinfo0]
          omega)
        (by
          have := contig_single_mkFragment (IPv4Header P) (IPv4Payload P) cv 0
            hH20 (by omega) hLsmall (by omega)
          simpa using this)
        (by rw [paySum_single_mkFragment _ _ _ _ hwfH hH20 (by omega)]; omega)
      have hrun : defragRun []
          (fragmentsFromAux (IPv4Header P) (IPv4Payload P) cv
            (IPv4Payload P).length 0) =
          ([], [reassemble (fragmentsFromAux (IPv4Header P) (IPv4Payload P) cv
            (IPv4Payload P).length 0)]) := by
        rw [hfs2, defragRun_cons_none _ hfilter0, hloop, List.singleton_append]
      -- Identify the reassembled packet.
      have hflat : ((fragmentsFromAux (IPv4Header P) (IPv4Payload P) cv
          (IPv4Payload P).length 0).map IPv4Payload).flatten = IPv4Payload P := by
        rw [fragAux_payloads (IPv4Header P) (IPv4Payload P) cv hwfH hH20 (by omega)
          _ 0 (by omega), List.drop_zero]
      have hQeq : reassemble (fragmentsFromAux (IPv4Header P) (IPv4Payload P) cv
          (IPv4Payload P).length 0) =
          IPv4SetChecksum (IPv4SetTotalLength (IPv4SetFragmentInfo
            (IPv4Header (mkFragment (IPv4Header P) (IPv4Payload P) cv 0) ++
              IPv4Payload P) false false 0)) := by
        unfold reassemble
        rw [hflat, hfs2]
        rfl
      have hmk0len : (mkFragment (IPv4Header P) (IPv4Payload P) cv 0).length =
          (IPv4Header P).length + cv := by
        rw [mkFragment_length _ _ _ _ (by omega), hmin0]
      have hHdtake : IPv4Header (mkFragment (IPv4Header P) (IPv4Payload P) cv 0) =
          (mkFragment (IPv4Header P) (IPv4Payload P) cv 0).take
            (IPv4Header P).length := by
        rw [IPv4Header, mkFragment_headerLen _ _ _ _ hwfH hH20]
      have hHdlen : (IPv4Header (mkFragment (IPv4Header P) (IPv4Payload P) cv 0)).length =
          IPv4HeaderLen P := by
        rw [hHdtake, List.length_take, hmk0len, hHlen]
        omega
      have hHdbyte : ∀ i, i < IPv4HeaderLen P →
          byteAt (IPv4Header (mkFragment (IPv4Header P) (IPv4Payload P) cv 0)) i =
            byteAt (mkFragment (IPv4Header P) (IPv4Payload P) cv 0) i := by
        intro i hi
        rw [hHdtake]
        exact byteAt_take (by omega)
      have hqlen : (IPv4Header (mkFragment (IPv4Header P) (IPv4Payload P) cv 0) ++
          IPv4Payload P).length = P.length := by
        rw [List.length_append, hHdlen]
        omega
      refine ⟨_, reassemble (fragmentsFromAux (IPv4Header P) (IPv4Payload P) cv
        (IPv4Payload P).length 0), hfw, hrun, ?_, ?_, ?_, ?_⟩
      · rw [hQeq, transform_length, hqlen]
      · rw [hQeq]
        unfold IPv4HeaderLen
        rw [transform_byteAt _ _ _ _ (by omega) (by omega) (by omega) (by omega)
          (by omega) (by omega),
          byteAt_append_left (by rw [hHdlen]; omega),
          hHdbyte 0 (by omega),
          mkFragment_byteAt _ _ _ _ (by omega) (by omega) (by omega) (by omega)
            (by omega) (by omega) (by omega), hH0]
      · intro i hi h4 h5 h6 h7 h10 h11
        rw [hQeq]
        by_cases hi2 : i = 2
        · subst hi2
          rw [(transform_lenBytes _ _ _ _ (by rw [hqlen]; omega)).1, hqlen,
            hlenField2]
        by_cases hi3 : i = 3
        · subst hi3
          rw [(transform_lenBytes _ _ _ _ (by rw [hqlen]; omega)).2, hqlen,
            hlenField3]
        · rw [transform_byteAt _ _ _ _ hi2 hi3 h6 h7 h10 h11,
            byteAt_append_left (by rw [hHdlen]; omega),
            hHdbyte i hi,
            mkFragment_byteAt _ _ _ _ (by omega) hi2 hi3 h6 h7 h10 h11]
          exact byteAt_take (by omega)
      · have hQhl : IPv4HeaderLen (reassemble (fragmentsFromAux (IPv4Header P)
            (IPv4Payload P) cv (IPv4Payload P).length 0)) = IPv4HeaderLen P := by
          rw [hQeq]
          unfold IPv4HeaderLen
          rw [@transform_byteAt _ false false 0 0 (by omega) (by omega) (by omega)
            (by omega) (by omega) (by omega),
            byteAt_append_left (by rw [hHdlen]; omega),
            hHdbyte 0 (by omega),
            @mkFragment_byteAt (IPv4Header P) (IPv4Payload P) cv 0 0 (by omega)
              (by omega) (by omega) (by omega) (by omega) (by omega) (by omega),
            hH0]
        rw [IPv4Payload, hQhl, hQeq, transform_drop _ _ _ _ (by omega)]
        conv_lhs => rw [show IPv4HeaderLen P =
          (IPv4Header (mkFragment (IPv4Header P) (IPv4Payload P) cv 0)).length
          from hHdlen.symm, List.drop_left]

/-- C4 (counterexample to the unamended claim): a valid 36-byte packet
with the source's don't-fragment bit (0x80) set and MTU 28 satisfies
the claim's hypotheses (valid, ≤ 65495 bytes, MTU ≥ header + 8), yet
the fragmenter rejects it outright, so no reassembled packet is
produced at all. -/
theorem ipv4_fragment_dontFragment_counterexample :
    IPv4Valid [0x45,0,0,36, 0,1, 0x80,0, 64,1, 0,0, 10,0,0,1, 10,0,0,2,
      1,2,3,4,5,6,7,8,9,10,11,12,13,14,15,16] = true ∧
    ([0x45,0,0,36, 0,1, 0x80,0, 64,1, 0,0, 10,0,0,1, 10,0,0,2,
      1,2,3,4,5,6,7,8,9,10,11,12,13,14,15,16] : List Nat).length ≤ 65495 ∧
    IPv4HeaderLen [0x45,0,0,36, 0,1, 0x80,0, 64,1, 0,0, 10,0,0,1, 10,0,0,2,
      1,2,3,4,5,6,7,8,9,10,11,12,13,14,15,16] + 8 ≤ 28 ∧
    fragWrite 28 [0x45,0,0,36, 0,1, 0x80,0, 64,1, 0,0, 10,0,0,1, 10,0,0,2,
      1,2,3,4,5,6,7,8,9,10,11,12,13,14,15,16] =
      Except.error "write: packet cannot be fragmented" :=
  ⟨by decide, by decide, by decide, by rfl⟩

/-- C4 (witness): a 36-byte packet fragmented at MTU 28 and reassembled. -/
theorem ipv4_fragment_defragment_roundtrip_witness :
    IPv4Valid [0x45,0,0,36, 0,1, 0,0, 64,1, 0,0, 10,0,0,1, 10,0,0,2,
      1,2,3,4,5,6,7,8,9,10,11,12,13,14,15,16] = true ∧
    ∃ fragments Q, fragWrite 28 [0x45,0,0,36, 0,1, 0,0, 64,1, 0,0,
        10,0,0,1, 10,0,0,2, 1,2,3,4,5,6,7,8,9,10,11,12,13,14,15,16] =
        Except.ok fragments ∧
      defragRun [] fragments = ([], [Q]) ∧
      Q.length = ([0x45,0,0,36, 0,1, 0,0, 64,1, 0,0, 10,0,0,1, 10,0,0,2,
        1,2,3,4,5,6,7,8,9,10,11,12,13,14,15,16] : List Nat).length ∧
      IPv4HeaderLen Q = IPv4HeaderLen [0x45,0,0,36, 0,1, 0,0, 64,1, 0,0,
        10,0,0,1, 10,0,0,2, 1,2,3,4,5,6,7,8,9,10,11,12,13,14,15,16] ∧
      (∀ i, i < IPv4HeaderLen [0x45,0,0,36, 0,1, 0,0, 64,1, 0,0,
          10,0,0,1, 10,0,0,2, 1,2,3,4,5,6,7,8,9,10,11,12,13,14,15,16] →
        i ≠ 4 → i ≠ 5 → i ≠ 6 → i ≠ 7 → i ≠ 10 → i ≠ 11 →
        byteAt Q i = byteAt [0x45,0,0,36, 0,1, 0,0, 64,1, 0,0, 10,0,0,1,
          10,0,0,2, 1,2,3,4,5,6,7,8,9,10,11,12,13,14,15,16] i) ∧
      IPv4Payload Q = IPv4Payload [0x45,0,0,36, 0,1, 0,0, 64,1, 0,0,
        10,0,0,1, 10,0,0,2, 1,2,3,4,5,6,7,8,9,10,11,12,13,14,15,16] :=
  ⟨by decide,
   ipv4_fragment_defragment_roundtrip _ 28 (by decide) (by decide) (by decide)
     (by decide) (by decide) (by decide)⟩

/-! ## TCP receive assembler (`tcp_recv.go`)

The assembler's fixed 65536-byte window and its received-mask are
modelled as functions on buffer offsets; only indices `< 65536` are
meaningful, matching the Go arrays.  `uint32` sequence arithmetic is
explicit `% 2^32`. -/

/-- `tcpSegment`. -/
structure TcpSegment where
  start : Nat
  data : List Nat
  fin : Bool

/-- `len(t.buffer)` of `newTCPAssembler`. -/
def tcpBufferSize : Nat := 65536

/-- `tcpAssembler`. -/
structure TcpAssembler where
  sequence : Nat
  buffer : Nat → Nat
  mask : Nat → Bool
  fin : Int

/-- `newTCPAssembler`. -/
def newTCPAssembler (seq : Nat) : TcpAssembler :=
  ⟨seq, fun _ => 0, fun _ => false, -2⟩

/-- The byte-writing loop of `AddSegment`:
`offset := uint32(i) + s.Start - t.sequence; if offset < len(buffer)
{ t.buffer[offset] = b; t.mask[offset] = true }`. -/
def addSegmentBytes (seqv start : Nat) : List Nat → Nat → (Nat → Nat) → (Nat → Bool) →
    (Nat → Nat) × (Nat → Bool)
  | [], _, buffer, mask => (buffer, mask)
  | b :: rest, i, buffer, mask =>
    if u32sub (u32 (i + start)) seqv < tcpBufferSize then
      addSegmentBytes seqv start rest (i + 1)
        (updateFn buffer (u32sub (u32 (i + start)) seqv) b)
        (updateFn mask (u32sub (u32 (i + start)) seqv) true)
    else
      addSegmentBytes seqv start rest (i + 1) buffer mask

/-- `tcpAssembler.AddSegment`. -/
def AddSegment (t : TcpAssembler) (s : TcpSegment) : TcpAssembler :=
  if t.fin = 0 ∨ t.fin = -1 then t
  else
    let bm := addSegmentBytes t.sequence s.start s.data 0 t.buffer t.mask
    let t1 : TcpAssembler := { t with buffer := bm.1, mask := bm.2 }
    if s.fin then
      if u32sub (u32 (s.start + s.data.length)) t1.sequence ≤ tcpBufferSize then
        { t1 with fin := (u32sub (u32 (s.start + s.data.length)) t1.sequence : Int) }
      else t1
    else t1

/-- The scanning loop of `Skim` (`for i, f := range t.mask`), by fuel;
started with fuel `tcpBufferSize` at index 0 it visits exactly the
indices of the Go loop: stop with EOF at the FIN offset, stop without
EOF at the byte budget or the first gap. -/
def skimLoop (buffer : Nat → Nat) (mask : Nat → Bool) (fin maxBytes : Int) :
    Nat → Nat → List Nat × Bool
  | 0, _ => ([], false)
  | fuel + 1, i =>
    if (i : Int) = fin then ([], true)
    else if (i : Int) = maxBytes ∨ mask i = false then ([], false)
    else
      ((buffer i :: (skimLoop buffer mask fin maxBytes fuel (i + 1)).1),
        (skimLoop buffer mask fin maxBytes fuel (i + 1)).2)

/-- `tcpAssembler.Skim`: the `(avail, eof)` pair and the state after
the shift `copy(t.buffer, t.buffer[readSize:])` (stale bytes beyond
`len - readSize` keep their old values, exactly as Go's `copy`; the
mask tail is cleared by the explicit loop). -/
def Skim (t : TcpAssembler) (maxBytes : Int) : (List Nat × Bool) × TcpAssembler :=
  if t.fin = -1 then (([], true), t)
  else
    let r := skimLoop t.buffer t.mask t.fin maxBytes tcpBufferSize 0
    let readSize := r.1.length + (if r.2 then 1 else 0)
    (r,
     { sequence := u32 (t.sequence + readSize),
       buffer := fun i =>
         if i + readSize < tcpBufferSize then t.buffer (i + readSize) else t.buffer i,
       mask := fun i =>
         if i + readSize < tcpBufferSize then t.mask (i + readSize) else false,
       fin := t.fin - readSize })

/-- `tcpRecvBuffer`; `cap` is `len(t.buffer)`. -/
structure TcpRecvBuffer where
  size : Nat
  buffer : Nat → Nat
  cap : Nat
  hitEOF : Bool

/-- `newTCPRecvBuffer`. -/
def newTCPRecvBuffer (bufSize : Nat) : TcpRecvBuffer :=
  ⟨0, fun _ => 0, bufSize, false⟩

/-- `tcpRecvBuffer.Window`. -/
def RecvWindow (t : TcpRecvBuffer) : Nat := t.cap - t.size

/-- `copy(t.buffer[pos:], data)`. -/
def writeBytes (f : Nat → Nat) : Nat → List Nat → (Nat → Nat)
  | _, [] => f
  | pos, b :: rest => writeBytes (updateFn f pos b) (pos + 1) rest

/-- `tcpRecvBuffer.Put`; `none` models the `panic("buffer overflow")`. -/
def RecvPut (t : TcpRecvBuffer) (data : List Nat) : Option TcpRecvBuffer :=
  if RecvWindow t < data.length then none
  else some { t with buffer := writeBytes t.buffer t.size data,
                     size := t.size + data.length }

/-- `tcpRecvBuffer.PutEOF`. -/
def RecvPutEOF (t : TcpRecvBuffer) : TcpRecvBuffer := { t with hitEOF := true }

/-- `tcpRecvBuffer.Get` reading up to `n` bytes: the bytes read, the
EOF flag (`t.size == 0 && t.hitEOF` after the read), and the new
state. -/
def RecvGet (t : TcpRecvBuffer) (n : Nat) : (List Nat × Bool) × TcpRecvBuffer :=
  let canRead := min t.size n
  let shifted : Nat → Nat := fun i =>
    if i + canRead < t.cap then t.buffer (i + canRead) else t.buffer i
  (((List.range canRead).map t.buffer,
    decide (t.size - canRead = 0) && t.hitEOF),
   { t with buffer := shifted, size := t.size - canRead })

/-- The receiving half of `simpleTcpRecv` that `Handle` touches: the
assembler and the delivery buffer. -/
structure SimpleTcpRecv where
  assembler : TcpAssembler
  buffer : TcpRecvBuffer

/-- `newSimpleTcpRecv`. -/
def newSimpleTcpRecv (startSeq bufSize : Nat) : SimpleTcpRecv :=
  ⟨newTCPAssembler startSeq, newTCPRecvBuffer bufSize⟩

/-- `simpleTcpRecv.Handle`: add the segment, skim at most the delivery
window, put the skimmed bytes (`none` = the `Put` panic), record EOF. -/
def Handle (s : SimpleTcpRecv) (seg : TcpSegment) : Option SimpleTcpRecv :=
  match RecvPut s.buffer (Skim (AddSegment s.assembler seg)
      (RecvWindow s.buffer : Int)).1.1 with
  | none => none
  | some b =>
    some ⟨(Skim (AddSegment s.assembler seg) (RecvWindow s.buffer : Int)).2,
      if (Skim (AddSegment s.assembler seg) (RecvWindow s.buffer : Int)).1.2 then
        RecvPutEOF b
      else b⟩

/-- Feed a list of segments through `Handle`. -/
def handleAll (s : SimpleTcpRecv) : List TcpSegment → Option SimpleTcpRecv
  | [] => some s
  | seg :: rest =>
    match Handle s seg with
    | none => none
    | some s' => handleAll s' rest

/-! ## The assembler trace of the specification (claim C5) -/

/-- Assembler state after feeding `{10, "hi!", fin}` from initial
sequence `0xfffffffe`. -/
def c5a1 : TcpAssembler :=
  AddSegment (newTCPAssembler 0xfffffffe) ⟨10, [104, 105, 33], true⟩

def c5r1 : (List Nat × Bool) × TcpAssembler := Skim c5a1 65536

/-- ... then `{1, "eyy"}`. -/
def c5a2 : TcpAssembler := AddSegment c5r1.2 ⟨1, [101, 121, 121], false⟩

def c5r2 : (List Nat × Bool) × TcpAssembler := Skim c5a2 65536

/-- ... then `{0xfffffffe, "hhhey"}`. -/
def c5a3 : TcpAssembler :=
  AddSegment c5r2.2 ⟨4294967294, [104, 104, 104, 101, 121], false⟩

def c5r3 : (List Nat × Bool) × TcpAssembler := Skim c5a3 65536

/-- ... then `{4, "hello!"}`. -/
def c5a4 : TcpAssembler :=
  AddSegment c5r3.2 ⟨4, [104, 101, 108, 108, 111, 33], false⟩

def c5r4 : (List Nat × Bool) × TcpAssembler := Skim c5a4 65536

/-- C5: with initial sequence `0xfffffffe`, feeding
`{10, "hi!", fin}`, `{1, "eyy"}`, `{0xfffffffe, "hhhey"}`,
`{4, "hello!"}` and skimming after each: the first two skims deliver
nothing; the third delivers "hhheyy" and leaves sequence 4; the fourth
delivers "hello!hi!" (cumulative "hhheyyhello!hi!"), leaves sequence
14, signals EOF, and marks the FIN consumed. -/
theorem tcpAssembler_trace_c5 :
    c5r1.1 = ([], false) ∧
    c5r2.1 = ([], false) ∧
    c5r3.1 = ([104, 104, 104, 101, 121, 121], false) ∧
    c5r3.2.sequence = 4 ∧
    c5r4.1 = ([104, 101, 108, 108, 111, 33, 104, 105, 33], true) ∧
    c5r4.2.sequence = 14 ∧
    c5r4.2.fin = -1 := by
  refine ⟨by decide, by decide, by decide, by decide, by decide, by decide, by decide⟩

/-! ## The FIN-offset field (claim C8) -/

/-- States of the assembler reachable by any sequence of `AddSegment`
and `Skim` calls. -/
inductive AsmReachable : TcpAssembler → Prop
  | init (seq : Nat) : AsmReachable (newTCPAssembler seq)
  | add (t : TcpAssembler) (s : TcpSegment) :
      AsmReachable t → AsmReachable (AddSegment t s)
  | skim (t : TcpAssembler) (maxBytes : Int) :
      AsmReachable t → AsmReachable ((Skim t maxBytes).2)

theorem fin_neg_one_frozen (t : TcpAssembler) (h : t.fin = -1) :
    ∀ (seg : TcpSegment) (m : Int), AddSegment t seg = t ∧ Skim t m = (([], true), t) :=
  fun _ _ =>
    ⟨by unfold AddSegment; rw [if_pos (Or.inr h)],
     by unfold Skim; rw [if_pos h]⟩

theorem addSegment_fin_le (t : TcpAssembler) (s : TcpSegment) (h : t.fin ≤ 65536) :
    (AddSegment t s).fin ≤ 65536 := by
  unfold AddSegment
  by_cases h1 : t.fin = 0 ∨ t.fin = -1
  · rw [if_pos h1]
    exact h
  · rw [if_neg h1]
    by_cases h2 : s.fin = true
    · simp only [h2, if_true]
      by_cases h3 : u32sub (u32 (s.start + s.data.length)) t.sequence ≤ tcpBufferSize
      · rw [if_pos h3]
        simp only [tcpBufferSize] at h3
        dsimp only
        exact_mod_cast h3
      · rw [if_neg h3]
        exact h
    · simp only [h2, if_false]
      exact h

theorem skim_fin_le (t : TcpAssembler) (m : Int) (h : t.fin ≤ 65536) :
    ((Skim t m).2).fin ≤ 65536 := by
  unfold Skim
  by_cases h1 : t.fin = -1
  · rw [if_pos h1]
    exact h
  · rw [if_neg h1]
    dsimp only
    omega

/-- C8 (amended): in every reachable assembler state the FIN-offset
field is at most 65536 (one past the window); `-1` means the FIN has
been consumed and is absorbing (further `AddSegment`s are ignored and
every `Skim` returns `([], eof)` without changing the state); any
value `≤ -2` — not only `-2` itself — means no FIN has been seen. -/
theorem tcpAssembler_fin_invariant (t : TcpAssembler) (h : AsmReachable t) :
    t.fin ≤ 65536 ∧
      (t.fin = -1 → ∀ (seg : TcpSegment) (m : Int),
        AddSegment t seg = t ∧ Skim t m = (([], true), t)) := by
  refine ⟨?_, fin_neg_one_frozen t⟩
  induction h with
  | init seq => norm_num [newTCPAssembler]
  | add t s ht ih => exact addSegment_fin_le t s ih
  | skim t m ht ih => exact skim_fin_le t m ih

/-- C8 (witness): the invariant applied to the freshly created
assembler. -/
theorem tcpAssembler_fin_invariant_witness :
    (newTCPAssembler 0).fin ≤ 65536 ∧
      ((newTCPAssembler 0).fin = -1 → ∀ (seg : TcpSegment) (m : Int),
        AddSegment (newTCPAssembler 0) seg = newTCPAssembler 0 ∧
          Skim (newTCPAssembler 0) m = (([], true), newTCPAssembler 0)) :=
  tcpAssembler_fin_invariant (newTCPAssembler 0) (AsmReachable.init 0)

/-- C8 (counterexample): skimming one byte while no FIN has been seen
drives the FIN offset to `-3 < -2`, in a reachable state, so the
claimed lower bound `fin ≥ -2` fails. -/
theorem tcpAssembler_fin_below_neg2 :
    AsmReachable ((Skim (AddSegment (newTCPAssembler 0) ⟨0, [97], false⟩) 1).2) ∧
      ((Skim (AddSegment (newTCPAssembler 0) ⟨0, [97], false⟩) 1).2).fin = -3 :=
  ⟨AsmReachable.skim _ 1 (AsmReachable.add _ _ (AsmReachable.init 0)), by decide⟩

/-! ## Skim is bounded by its byte budget (claim C10) -/

theorem skimLoop_length_le (buffer : Nat → Nat) (mask : Nat → Bool) (f M : Int) :
    ∀ (fuel i : Nat), (i : Int) ≤ M →
      ((skimLoop buffer mask f M fuel i).1.length : Int) ≤ M - i := by
  intro fuel
  induction fuel with
  | zero => intro i hi; simp [skimLoop]; omega
  | succ fuel ih =>
    intro i hi
    unfold skimLoop
    by_cases h1 : (i : Int) = f
    · rw [if_pos h1]
      simp
      omega
    · rw [if_neg h1]
      by_cases h2 : (i : Int) = M ∨ mask i = false
      · rw [if_pos h2]
        simp
        omega
      · rw [if_neg h2]
        have hiM : (i : Int) ≠ M := fun hc => h2 (Or.inl hc)
        have := ih (i + 1) (by push_cast; omega)
        simp only [List.length_cons]
        push_cast at this ⊢
        omega

/-- C10: `Skim` never returns more than `maxBytes` bytes (for any
non-negative byte budget), and therefore `simpleTcpRecv.Handle` — which
budgets `Skim` by the delivery buffer's free window — can never trip
the `"buffer overflow"` panic of `tcpRecvBuffer.Put`. -/
theorem tcpSkim_bounded_handle_no_panic (t : TcpAssembler) (maxBytes : Int)
    (s : SimpleTcpRecv) (seg : TcpSegment) (hm : 0 ≤ maxBytes)
    (hs : s.buffer.size ≤ s.buffer.cap) :
    ((Skim t maxBytes).1.1.length : Int) ≤ maxBytes ∧ Handle s seg ≠ none := by
  have hbound : ∀ (t' : TcpAssembler) (m : Int), 0 ≤ m →
      ((Skim t' m).1.1.length : Int) ≤ m := by
    intro t' m hm'
    unfold Skim
    by_cases h1 : t'.fin = -1
    · rw [if_pos h1]
      simpa using hm'
    · rw [if_neg h1]
      have := skimLoop_length_le t'.buffer t'.mask t'.fin m tcpBufferSize 0
        (by exact_mod_cast hm')
      simpa using this
  refine ⟨hbound t maxBytes hm, ?_⟩
  have hlen : ((Skim (AddSegment s.assembler seg)
      (RecvWindow s.buffer : Int)).1.1.length : Int) ≤ (RecvWindow s.buffer : Int) :=
    hbound _ _ (by positivity)
  have hlen' : (Skim (AddSegment s.assembler seg)
      (RecvWindow s.buffer : Int)).1.1.length ≤ RecvWindow s.buffer := by
    exact_mod_cast hlen
  have hput : RecvPut s.buffer (Skim (AddSegment s.assembler seg)
      (RecvWindow s.buffer : Int)).1.1 ≠ none := by
    unfold RecvPut
    rw [if_neg (by omega)]
    simp
  unfold Handle
  cases hp : RecvPut s.buffer (Skim (AddSegment s.assembler seg)
      (RecvWindow s.buffer : Int)).1.1 with
  | none => exact absurd hp hput
  | some b => simp

/-- C10 (witness): a fresh receiver with window 4 handles a one-byte
segment without panicking, and a zero budget yields zero bytes. -/
theorem tcpSkim_bounded_handle_no_panic_witness :
    ((Skim (newTCPAssembler 0) 0).1.1.length : Int) ≤ 0 ∧
      Handle (newSimpleTcpRecv 0 4) ⟨0, [1], false⟩ ≠ none :=
  tcpSkim_bounded_handle_no_panic (newTCPAssembler 0) 0 (newSimpleTcpRecv 0 4)
    ⟨0, [1], false⟩ (by decide) (by decide)

/-! ## TCP receiver end-to-end reassembly (claim C3) -/

theorem writeBytes_spec (data : List Nat) : ∀ (f : Nat → Nat) (pos j : Nat),
    writeBytes f pos data j =
      if pos ≤ j ∧ j < pos + data.length then data.getD (j - pos) 0 else f j := by
  induction data with
  | nil =>
    intro f pos j
    simp only [writeBytes, List.length_nil]
    rw [if_neg (by omega)]
  | cons b rest ih =>
    intro f pos j
    simp only [writeBytes, List.length_cons]
    rw [ih]
    by_cases h1 : pos + 1 ≤ j ∧ j < pos + 1 + rest.length
    · rw [if_pos h1, if_pos (by omega)]
      have hj : j - pos = (j - (pos + 1)) + 1 := by omega
      rw [hj, List.getD_cons_succ]
    · rw [if_neg h1]
      unfold updateFn
      by_cases h2 : j = pos
      · rw [if_pos h2, if_pos (by omega), h2, Nat.sub_self, List.getD_cons_zero]
      · rw [if_neg h2, if_neg (by omega)]

theorem getD_range_map (f : Nat → Nat) (s L m : Nat) (hm : m < L) :
    (((List.range' s L).map f).getD m 0) = f (s + m) := by
  rw [List.getD_eq_getElem _ _ (by simpa using hm)]
  simp

theorem addSegmentBytes_spec (seqv start : Nat) :
    ∀ (data : List Nat) (i : Nat) (buffer : Nat → Nat) (mask : Nat → Bool) (j : Nat),
      ((∀ k, k < data.length → u32sub (u32 (i + k + start)) seqv ≠ j) →
        (addSegmentBytes seqv start data i buffer mask).1 j = buffer j ∧
        (addSegmentBytes seqv start data i buffer mask).2 j = mask j) ∧
      (∀ k, k < data.length → u32sub (u32 (i + k + start)) seqv = j →
        j < tcpBufferSize →
        (∀ k', k < k' → k' < data.length → u32sub (u32 (i + k' + start)) seqv ≠ j) →
        (addSegmentBytes seqv start data i buffer mask).1 j = data.getD k 0 ∧
        (addSegmentBytes seqv start data i buffer mask).2 j = true) ∧
      ((addSegmentBytes seqv start data i buffer mask).2 j = true →
        mask j = true ∨ ∃ k, k < data.length ∧ u32sub (u32 (i + k + start)) seqv = j ∧
          j < tcpBufferSize) ∧
      (mask j = true → (addSegmentBytes seqv start data i buffer mask).2 j = true) := by
  intro data
  induction data with
  | nil =>
    intro i buffer mask j
    exact ⟨fun _ => ⟨rfl, rfl⟩, fun k hk => absurd hk (by simp),
      fun h => Or.inl h, fun h => h⟩
  | cons b rest ih =>
    intro i buffer mask j
    have hshift : ∀ k : Nat, i + (k + 1) + start = i + 1 + k + start := fun k => by omega
    have hzero : i + 0 + start = i + start := by omega
    simp only [addSegmentBytes, List.length_cons]
    by_cases ho : u32sub (u32 (i + start)) seqv < tcpBufferSize
    · rw [if_pos ho]
      obtain ⟨ih1, ih2, ih3, ih4⟩ :=
        ih (i + 1) (updateFn buffer (u32sub (u32 (i + start)) seqv) b)
          (updateFn mask (u32sub (u32 (i + start)) seqv) true) j
      refine ⟨?_, ?_, ?_, ?_⟩
      · intro hno
        have h0 : u32sub (u32 (i + start)) seqv ≠ j := by
          have := hno 0 (by omega)
          rwa [hzero] at this
        have hrest : ∀ k, k < rest.length → u32sub (u32 (i + 1 + k + start)) seqv ≠ j := by
          intro k hk
          have := hno (k + 1) (by omega)
          rwa [hshift k] at this
        obtain ⟨hb, hm⟩ := ih1 hrest
        refine ⟨?_, ?_⟩
        · rw [hb]
          unfold updateFn
          rw [if_neg (fun hc => h0 hc.symm)]
        · rw [hm]
          unfold updateFn
          rw [if_neg (fun hc => h0 hc.symm)]
      · intro k hk hoff hj hlater
        match k with
        | 0 =>
          rw [hzero] at hoff
          have hrest : ∀ k', k' < rest.length →
              u32sub (u32 (i + 1 + k' + start)) seqv ≠ j := by
            intro k' hk'
            have := hlater (k' + 1) (by omega) (by omega)
            rwa [hshift k'] at this
          obtain ⟨hb, hm⟩ := ih1 hrest
          refine ⟨?_, ?_⟩
          · rw [hb]
            unfold updateFn
            rw [if_pos hoff.symm, List.getD_cons_zero]
          · rw [hm]
            unfold updateFn
            rw [if_pos hoff.symm]
        | k' + 1 =>
          rw [hshift k'] at hoff
          have hlater' : ∀ k'', k' < k'' → k'' < rest.length →
              u32sub (u32 (i + 1 + k'' + start)) seqv ≠ j := by
            intro k'' h1 h2
            have := hlater (k'' + 1) (by omega) (by omega)
            rwa [hshift k''] at this
          obtain ⟨hb, hm⟩ := ih2 k' (by omega) hoff hj hlater'
          exact ⟨by rw [hb, List.getD_cons_succ], hm⟩
      · intro hm
        rcases ih3 hm with h | ⟨k, hk, hoff, hj⟩
        · unfold updateFn at h
          by_cases he : j = u32sub (u32 (i + start)) seqv
          · exact Or.inr ⟨0, by omega, by rw [hzero]; omega, by omega⟩
          · rw [if_neg he] at h
            exact Or.inl h
        · exact Or.inr ⟨k + 1, by omega, by rw [hshift k]; exact hoff, hj⟩
      · intro hm
        apply ih4
        unfold updateFn
        by_cases he : j = u32sub (u32 (i + start)) seqv
        · rw [if_pos he]
        · rw [if_neg he]
          exact hm
    · rw [if_neg ho]
      obtain ⟨ih1, ih2, ih3, ih4⟩ := ih (i + 1) buffer mask j
      refine ⟨?_, ?_, ?_, ?_⟩
      · intro hno
        apply ih1
        intro k hk
        have := hno (k + 1) (by omega)
        rwa [hshift k] at this
      · intro k hk hoff hj hlater
        match k with
        | 0 =>
          rw [hzero] at hoff
          exact absurd (hoff ▸ hj) ho
        | k' + 1 =>
          rw [hshift k'] at hoff
          have hlater' : ∀ k'', k' < k'' → k'' < rest.length →
              u32sub (u32 (i + 1 + k'' + start)) seqv ≠ j := by
            intro k'' h1 h2
            have := hlater (k'' + 1) (by omega) (by omega)
            rwa [hshift k''] at this
          obtain ⟨hb, hm⟩ := ih2 k' (by omega) hoff hj hlater'
          exact ⟨by rw [hb, List.getD_cons_succ], hm⟩
      · intro hm
        rcases ih3 hm with h | ⟨k, hk, hoff, hj⟩
        · exact Or.inl h
        · exact Or.inr ⟨k + 1, by omega, by rw [hshift k]; exact hoff, hj⟩
      · exact ih4

theorem skimLoop_spec (buffer : Nat → Nat) (mask : Nat → Bool) (f M : Int) :
    ∀ (fuel i : Nat) (res : List Nat) (eof : Bool),
      skimLoop buffer mask f M fuel i = (res, eof) →
      res = (List.range' i res.length).map buffer ∧
      (∀ j, i ≤ j → j < i + res.length →
        mask j = true ∧ (j : Int) ≠ f ∧ (j : Int) ≠ M) ∧
      (eof = true → ((i + res.length : Nat) : Int) = f) ∧
      (eof = false → res.length = fuel ∨
        (((i + res.length : Nat) : Int) ≠ f ∧
          (((i + res.length : Nat) : Int) = M ∨ mask (i + res.length) = false))) := by
  intro fuel
  induction fuel with
  | zero =>
    intro i res eof h
    simp only [skimLoop] at h
    injection h with h1 h2
    subst h1
    subst h2
    refine ⟨rfl, ?_, ?_, ?_⟩
    · intro j hj1 hj2
      simp only [List.length_nil] at hj2
      omega
    · intro hc
      cases hc
    · intro h
      exact Or.inl rfl
  | succ fuel ih =>
    intro i res eof h
    simp only [skimLoop] at h
    by_cases h1 : (i : Int) = f
    · rw [if_pos h1] at h
      injection h with ha hb
      subst ha
      subst hb
      refine ⟨rfl, ?_, ?_, ?_⟩
      · intro j hj1 hj2
        simp only [List.length_nil] at hj2
        omega
      · intro _
        simpa using h1
      · intro hc
        cases hc
    · rw [if_neg h1] at h
      by_cases h2 : (i : Int) = M ∨ mask i = false
      · rw [if_pos h2] at h
        injection h with ha hb
        subst ha
        subst hb
        refine ⟨rfl, ?_, ?_, ?_⟩
        · intro j hj1 hj2
          simp only [List.length_nil] at hj2
          omega
        · intro hc
          cases hc
        · intro _
          refine Or.inr ⟨by simpa using h1, ?_⟩
          simpa using h2
      · rw [if_neg h2] at h
        have hmask : mask i = true := by
          rcases Bool.eq_false_or_eq_true (mask i) with ht | hf
          · exact ht
          · exact absurd (Or.inr hf) h2
        have hiM : (i : Int) ≠ M := fun hc => h2 (Or.inl hc)
        obtain ⟨ih1, ih2, ih3, ih4⟩ := ih (i + 1)
          (skimLoop buffer mask f M fuel (i + 1)).1
          (skimLoop buffer mask f M fuel (i + 1)).2 rfl
        injection h with ha hb
        subst ha
        subst hb
        refine ⟨?_, ?_, ?_, ?_⟩
        · simp only [List.length_cons]
          rw [List.range'_succ, List.map_cons]
          exact congrArg (buffer i :: ·) ih1
        · intro j hj1 hj2
          by_cases hji : j = i
          · subst hji
            exact ⟨hmask, h1, hiM⟩
          · apply ih2 j (by omega)
            simp only [List.length_cons] at hj2
            omega
        · intro he
          have := ih3 he
          have harith : i + 1 + (skimLoop buffer mask f M fuel (i + 1)).1.length =
              i + (buffer i :: (skimLoop buffer mask f M fuel (i + 1)).1).length := by
            simp only [List.length_cons]
            omega
          rwa [harith] at this
        · intro he
          rcases ih4 he with hl | ⟨hf2, hstop⟩
          · left
            simp only [List.length_cons, hl]
          · right
            have harith : i + 1 + (skimLoop buffer mask f M fuel (i + 1)).1.length =
                i + (buffer i :: (skimLoop buffer mask f M fuel (i + 1)).1).length := by
              simp only [List.length_cons]
              omega
            rw [harith] at hf2 hstop
            exact ⟨hf2, hstop⟩

theorem u32_u32_add (a b : Nat) : u32 (u32 a + b) = u32 (a + b) := by
  unfold u32
  exact Nat.mod_add_mod a 4294967296 b

theorem u32sub_u32_u32 (a b : Nat) : u32sub (u32 a) (u32 b) = u32sub a b := by
  unfold u32sub u32
  omega

theorem u32sub_shift (x a b : Nat) : u32sub (x + a) (x + b) = u32sub a b := by
  unfold u32sub
  omega

theorem start_congr (s0 start : Nat) (hs0 : s0 < 4294967296) :
    u32 (k + start) = u32 (s0 + u32sub (u32 start) (u32 s0) + k) := by
  unfold u32sub u32
  omega

theorem rel_offset (s0 d start k : Nat) (hs0 : s0 < 4294967296)
    (hrk : u32sub (u32 start) (u32 s0) + k < 4294967296)
    (hd : d < 4294967296) :
    u32sub (u32 (k + start)) (u32 (s0 + d)) =
      if d ≤ u32sub (u32 start) (u32 s0) + k
      then u32sub (u32 start) (u32 s0) + k - d
      else 4294967296 - (d - (u32sub (u32 start) (u32 s0) + k)) := by
  rw [start_congr s0 start hs0, u32sub_u32_u32]
  have h1 : s0 + u32sub (u32 start) (u32 s0) + k =
      s0 + (u32sub (u32 start) (u32 s0) + k) := by omega
  rw [h1, u32sub_shift]
  rw [u32sub_eq _ _ hrk hd]
  by_cases h2 : d ≤ u32sub (u32 start) (u32 s0) + k
  · rw [if_pos h2, if_pos h2]
  · rw [if_neg h2, if_neg h2]
    omega

/-- Offset of a segment relative to the stream start `s0` (wrapping
32-bit subtraction, as the assembler computes it). -/
def relSeg (s0 : Nat) (seg : TcpSegment) : Nat := u32sub (u32 seg.start) (u32 s0)

/-- The segment lies inside the stream `D` that starts at sequence
`s0`, carries the matching bytes, and a FIN sits exactly at the
stream end. -/
def SegWf (s0 : Nat) (D : List Nat) (seg : TcpSegment) : Prop :=
  relSeg s0 seg + seg.data.length ≤ D.length ∧
  (∀ k, k < seg.data.length → seg.data.getD k 0 = D.getD (relSeg s0 seg + k) 0) ∧
  (seg.fin = true → relSeg s0 seg + seg.data.length = D.length)

/-- The segment's data range covers stream position `j`. -/
def SegCovers (s0 : Nat) (seg : TcpSegment) (j : Nat) : Prop :=
  relSeg s0 seg ≤ j ∧ j < relSeg s0 seg + seg.data.length

instance instDecidableSegWf (s0 : Nat) (D : List Nat) (seg : TcpSegment) :
    Decidable (SegWf s0 D seg) := by
  unfold SegWf
  infer_instance

instance instDecidableSegCovers (s0 : Nat) (seg : TcpSegment) (j : Nat) :
    Decidable (SegCovers s0 seg j) := by
  unfold SegCovers
  infer_instance

/-- Invariant of the receiver after the segments `done` have been
handled: the delivery buffer holds a prefix of `D`, the assembler
window continues it, position `0` of the window is a gap unless all
of `D` has been delivered, and the FIN offset tracks the stream end. -/
def RecvInv (s0 : Nat) (D : List Nat) (bufSize : Nat) (done : List TcpSegment)
    (st : SimpleTcpRecv) : Prop :=
  st.buffer.size ≤ D.length ∧
  st.buffer.cap = bufSize ∧
  (st.buffer.hitEOF = true ↔ st.assembler.fin = -1) ∧
  (∀ j, j < st.buffer.size → st.buffer.buffer j = D.getD j 0) ∧
  st.assembler.sequence =
    u32 (s0 + st.buffer.size + (if st.assembler.fin = -1 then 1 else 0)) ∧
  (∀ i, st.assembler.mask i = true →
    st.buffer.size + i < D.length ∧
    st.assembler.buffer i = D.getD (st.buffer.size + i) 0) ∧
  (st.buffer.size < D.length → st.assembler.mask 0 = false) ∧
  (st.assembler.fin = -1 → st.buffer.size = D.length) ∧
  (0 ≤ st.assembler.fin →
    1 ≤ st.assembler.fin ∧
    (st.assembler.fin + (st.buffer.size : Int)) = (D.length : Int)) ∧
  ((∃ s ∈ done, s.fin = true) → -1 ≤ st.assembler.fin) ∧
  (∀ j, j < D.length → (∃ s ∈ done, SegCovers s0 s j) →
    j < st.buffer.size ∨ st.assembler.mask (j - st.buffer.size) = true)

theorem Handle_eq (st : SimpleTcpRecv) (seg : TcpSegment) (res : List Nat) (eof : Bool)
    (asm' : TcpAssembler)
    (hskim : Skim (AddSegment st.assembler seg) (RecvWindow st.buffer : Int) =
      ((res, eof), asm'))
    (hwin : res.length ≤ RecvWindow st.buffer) :
    Handle st seg = some ⟨asm',
      if eof then
        RecvPutEOF { st.buffer with
          buffer := writeBytes st.buffer.buffer st.buffer.size res,
          size := st.buffer.size + res.length }
      else
        { st.buffer with
          buffer := writeBytes st.buffer.buffer st.buffer.size res,
          size := st.buffer.size + res.length }⟩ := by
  have hput : RecvPut st.buffer res = some { st.buffer with
      buffer := writeBytes st.buffer.buffer st.buffer.size res,
      size := st.buffer.size + res.length } := by
    unfold RecvPut
    rw [if_neg (by omega)]
  unfold Handle
  rw [hskim]
  dsimp only
  rw [hput]

theorem handle_step (s0 bufSize : Nat) (D : List Nat) (done : List TcpSegment)
    (st : SimpleTcpRecv) (seg : TcpSegment)
    (hs0 : s0 < 4294967296) (hn : D.length < tcpBufferSize)
    (hbufn : D.length ≤ bufSize)
    (hinv : RecvInv s0 D bufSize done st) (hseg : SegWf s0 D seg) :
    ∃ st', Handle st seg = some st' ∧ RecvInv s0 D bufSize (done ++ [seg]) st' := by
  obtain ⟨inv1, inv2, inv3, inv4, inv5, inv6, inv7, inv8, inv9, inv10, inv11⟩ := hinv
  obtain ⟨wf1, wf2, wf3⟩ := hseg
  have hn' : D.length < 65536 := hn
  by_cases hfin : st.assembler.fin = -1
  · -- FIN already consumed: the receiver is inert.
    have hd : st.buffer.size = D.length := inv8 hfin
    have hskim : Skim (AddSegment st.assembler seg) (RecvWindow st.buffer : Int) =
        (([], true), st.assembler) := by
      have hadd : AddSegment st.assembler seg = st.assembler := by
        unfold AddSegment
        rw [if_pos (Or.inr hfin)]
      rw [hadd]
      unfold Skim
      rw [if_pos hfin]
    refine ⟨_, Handle_eq st seg [] true st.assembler hskim (by simp), ?_⟩
    unfold RecvInv
    refine ⟨?_, ?_, ?_, ?_, ?_, ?_, ?_, ?_, ?_, ?_, ?_⟩
    · exact inv1
    · exact inv2
    · exact ⟨fun _ => hfin, fun _ => rfl⟩
    · exact inv4
    · exact inv5
    · exact inv6
    · exact inv7
    · exact fun _ => hd
    · exact inv9
    · intro _
      show (-1 : Int) ≤ st.assembler.fin
      omega
    · intro j hj _
      refine Or.inl ?_
      show j < st.buffer.size
      omega
  · -- FIN not yet consumed.
    have hfin0 : st.assembler.fin ≠ 0 := by
      intro hc
      have := inv9 (by omega)
      omega
    have h01 : ¬(st.assembler.fin = 0 ∨ st.assembler.fin = -1) := by
      rintro (h | h)
      · exact hfin0 h
      · exact hfin h
    have hseq : st.assembler.sequence = u32 (s0 + st.buffer.size) := by
      rw [inv5, if_neg hfin, Nat.add_zero]
    have haddeq : AddSegment st.assembler seg =
        { sequence := st.assembler.sequence,
          buffer := (addSegmentBytes st.assembler.sequence seg.start seg.data 0
            st.assembler.buffer st.assembler.mask).1,
          mask := (addSegmentBytes st.assembler.sequence seg.start seg.data 0
            st.assembler.buffer st.assembler.mask).2,
          fin := if seg.fin = true then
              (if u32sub (u32 (seg.start + seg.data.length)) st.assembler.sequence ≤
                  tcpBufferSize then
                ((u32sub (u32 (seg.start + seg.data.length))
                  st.assembler.sequence : Nat) : Int)
              else st.assembler.fin)
            else st.assembler.fin } := by
      unfold AddSegment
      rw [if_neg h01]
      dsimp only
      split_ifs with hsf hle
      · rfl
      · rfl
      · rfl
    have hoff : ∀ k, relSeg s0 seg + k ≤ D.length →
        u32sub (u32 (0 + k + seg.start)) st.assembler.sequence =
          if st.buffer.size ≤ relSeg s0 seg + k
          then relSeg s0 seg + k - st.buffer.size
          else 4294967296 - (st.buffer.size - (relSeg s0 seg + k)) := by
      intro k hk
      rw [hseq, Nat.zero_add]
      exact rel_offset s0 st.buffer.size seg.start k hs0
        (by unfold relSeg at hk; omega) (by omega)
    have hmA : (AddSegment st.assembler seg).mask =
        (addSegmentBytes st.assembler.sequence seg.start seg.data 0
          st.assembler.buffer st.assembler.mask).2 := by
      rw [haddeq]
    have hbA : (AddSegment st.assembler seg).buffer =
        (addSegmentBytes st.assembler.sequence seg.start seg.data 0
          st.assembler.buffer st.assembler.mask).1 := by
      rw [haddeq]
    have hsA : (AddSegment st.assembler seg).sequence = st.assembler.sequence := by
      rw [haddeq]
    have hF1 : ∀ i, (AddSegment st.assembler seg).mask i = true →
        st.buffer.size + i < D.length ∧
        (AddSegment st.assembler seg).buffer i = D.getD (st.buffer.size + i) 0 := by
      intro i hmi
      rw [hmA] at hmi
      rw [hbA]
      obtain ⟨sp1, sp2, sp3, sp4⟩ := addSegmentBytes_spec st.assembler.sequence seg.start
        seg.data 0 st.assembler.buffer st.assembler.mask i
      by_cases hex : ∃ k, k < seg.data.length ∧
          u32sub (u32 (0 + k + seg.start)) st.assembler.sequence = i
      · obtain ⟨k, hk, hoffk⟩ := hex
        have hrk : relSeg s0 seg + k ≤ D.length := by omega
        have hoffi := hoff k hrk
        by_cases hcase : st.buffer.size ≤ relSeg s0 seg + k
        · rw [hoffi, if_pos hcase] at hoffk
          have hlater : ∀ k', k < k' → k' < seg.data.length →
              u32sub (u32 (0 + k' + seg.start)) st.assembler.sequence ≠ i := by
            intro k' h1 h2
            rw [hoff k' (by omega), if_pos (by omega)]
            omega
          obtain ⟨hbv, _⟩ := sp2 k hk (by rw [hoffi, if_pos hcase]; exact hoffk)
            (by show i < 65536; omega) hlater
          refine ⟨by omega, ?_⟩
          rw [hbv, wf2 k hk]
          congr 1
          omega
        · rw [hoffi, if_neg hcase] at hoffk
          exfalso
          rcases sp3 hmi with hold | ⟨k2, hk2, hoffk2, hlt2⟩
          · have := inv6 i hold
            omega
          · have hlt2' : i < 65536 := hlt2
            omega
      · push_neg at hex
        obtain ⟨hbv, hmv⟩ := sp1 (fun k hk => hex k hk)
        rw [hmv] at hmi
        rw [hbv]
        exact inv6 i hmi
    have hF2 : ∀ i, st.assembler.mask i = true →
        (AddSegment st.assembler seg).mask i = true := by
      intro i hmi
      rw [hmA]
      obtain ⟨_, _, _, sp4⟩ := addSegmentBytes_spec st.assembler.sequence seg.start
        seg.data 0 st.assembler.buffer st.assembler.mask i
      exact sp4 hmi
    have hF3 : ∀ j, j < D.length → SegCovers s0 seg j →
        j < st.buffer.size ∨
          (AddSegment st.assembler seg).mask (j - st.buffer.size) = true := by
      intro j hj hc
      obtain ⟨hc1, hc2⟩ : relSeg s0 seg ≤ j ∧ j < relSeg s0 seg + seg.data.length := hc
      by_cases hjd : j < st.buffer.size
      · exact Or.inl hjd
      · refine Or.inr ?_
        rw [hmA]
        obtain ⟨sp1, sp2, sp3, sp4⟩ := addSegmentBytes_spec st.assembler.sequence seg.start
          seg.data 0 st.assembler.buffer st.assembler.mask (j - st.buffer.size)
        have hk : j - relSeg s0 seg < seg.data.length := by omega
        have hoffk : u32sub (u32 (0 + (j - relSeg s0 seg) + seg.start))
            st.assembler.sequence = j - st.buffer.size := by
          rw [hoff (j - relSeg s0 seg) (by omega), if_pos (by omega)]
          omega
        have hlater : ∀ k', j - relSeg s0 seg < k' → k' < seg.data.length →
            u32sub (u32 (0 + k' + seg.start)) st.assembler.sequence ≠
              j - st.buffer.size := by
          intro k' h1 h2
          rw [hoff k' (by omega), if_pos (by omega)]
          omega
        obtain ⟨_, hmv⟩ := sp2 (j - relSeg s0 seg) hk hoffk
          (by show j - st.buffer.size < 65536; omega) hlater
        exact hmv
    have hfinoff : seg.fin = true →
        u32sub (u32 (seg.start + seg.data.length)) st.assembler.sequence =
          D.length - st.buffer.size := by
      intro hsf
      have h3 := wf3 hsf
      have hcomm : seg.start + seg.data.length = 0 + seg.data.length + seg.start := by
        omega
      rw [hcomm, hoff seg.data.length (by omega), if_pos (by omega)]
      omega
    have hfin1fin : seg.fin = true → (AddSegment st.assembler seg).fin =
        ((D.length - st.buffer.size : Nat) : Int) := by
      intro hsf
      rw [haddeq]
      dsimp only
      rw [if_pos hsf, if_pos (by rw [hfinoff hsf]; show _ ≤ 65536; omega), hfinoff hsf]
    have hfin1nf : seg.fin = false → (AddSegment st.assembler seg).fin =
        st.assembler.fin := by
      intro hsf
      rw [haddeq]
      dsimp only
      rw [if_neg (by rw [hsf]; exact Bool.false_ne_true)]
    have hfin1ne : (AddSegment st.assembler seg).fin ≠ -1 := by
      rcases Bool.eq_false_or_eq_true seg.fin with hsf | hsf
      · rw [hfin1fin hsf]
        omega
      · rw [hfin1nf hsf]
        exact hfin
    have hfin1val : 0 ≤ (AddSegment st.assembler seg).fin →
        ((AddSegment st.assembler seg).fin + (st.buffer.size : Int)) =
          (D.length : Int) := by
      rcases Bool.eq_false_or_eq_true seg.fin with hsf | hsf
      · rw [hfin1fin hsf]
        intro _
        omega
      · rw [hfin1nf hsf]
        exact fun h => (inv9 h).2
    have hfin1pos : (∃ s ∈ done ++ [seg], s.fin = true) →
        0 ≤ (AddSegment st.assembler seg).fin := by
      rintro ⟨s, hs, hsfin⟩
      rcases List.mem_append.mp hs with hdone | hsg
      · have h10 := inv10 ⟨s, hdone, hsfin⟩
        rcases Bool.eq_false_or_eq_true seg.fin with hsf | hsf
        · rw [hfin1fin hsf]
          omega
        · rw [hfin1nf hsf]
          omega
      · have hseq' : s = seg := by simpa using hsg
        rw [hfin1fin (hseq' ▸ hsfin)]
        omega
    obtain ⟨p, hres⟩ : ∃ p, skimLoop (AddSegment st.assembler seg).buffer
        (AddSegment st.assembler seg).mask (AddSegment st.assembler seg).fin
        (RecvWindow st.buffer : Int) tcpBufferSize 0 = p := ⟨_, rfl⟩
    obtain ⟨res, eof⟩ := p
    obtain ⟨sk1, sk2, sk3, sk4⟩ := skimLoop_spec (AddSegment st.assembler seg).buffer
      (AddSegment st.assembler seg).mask (AddSegment st.assembler seg).fin
      (RecvWindow st.buffer : Int) tcpBufferSize 0 res eof hres
    have hresmask : ∀ j, j < res.length →
        (AddSegment st.assembler seg).mask j = true := by
      intro j hj
      exact (sk2 j (by omega) (by omega)).1
    have hfinnotin : ∀ j, j < res.length →
        ((j : Nat) : Int) ≠ (AddSegment st.assembler seg).fin := by
      intro j hj
      exact (sk2 j (by omega) (by omega)).2.1
    have hLn : st.buffer.size + res.length ≤ D.length := by
      rcases Nat.eq_zero_or_pos res.length with h0 | hpos
      · omega
      · have := hF1 (res.length - 1) (hresmask _ (by omega))
        omega
    have hwinval : RecvWindow st.buffer = bufSize - st.buffer.size := by
      unfold RecvWindow
      rw [inv2]
    have hwinle : res.length ≤ RecvWindow st.buffer := by omega
    have hresval : ∀ m, m < res.length →
        res.getD m 0 = D.getD (st.buffer.size + m) 0 := by
      intro m hm
      rw [sk1, getD_range_map _ _ _ _ hm, Nat.zero_add]
      exact (hF1 m (hresmask m hm)).2
    have hputbuf : ∀ j, j < st.buffer.size + res.length →
        writeBytes st.buffer.buffer st.buffer.size res j = D.getD j 0 := by
      intro j hj
      rw [writeBytes_spec]
      by_cases hcase : st.buffer.size ≤ j
      · rw [if_pos ⟨hcase, by omega⟩, hresval (j - st.buffer.size) (by omega)]
        have harg : st.buffer.size + (j - st.buffer.size) = j := by omega
        rw [harg]
      · rw [if_neg (by omega)]
        exact inv4 j (by omega)
    rcases Bool.eq_false_or_eq_true eof with heof | heof
    · -- the skim reached the FIN: everything is delivered and EOF recorded
      subst heof
      have hskimeq : Skim (AddSegment st.assembler seg) (RecvWindow st.buffer : Int) =
          ((res, true),
           { sequence := u32 ((AddSegment st.assembler seg).sequence +
               (res.length + 1)),
             buffer := fun i =>
               if i + (res.length + 1) < tcpBufferSize then
                 (AddSegment st.assembler seg).buffer (i + (res.length + 1))
               else (AddSegment st.assembler seg).buffer i,
             mask := fun i =>
               if i + (res.length + 1) < tcpBufferSize then
                 (AddSegment st.assembler seg).mask (i + (res.length + 1))
               else false,
             fin := (AddSegment st.assembler seg).fin -
               ((res.length + 1 : Nat) : Int) }) := by
        unfold Skim
        rw [if_neg hfin1ne]
        dsimp only
        rw [hres]
        simp
      have hfineq : ((res.length : Nat) : Int) = (AddSegment st.assembler seg).fin := by
        have := sk3 rfl
        simpa using this
      have h0f : 0 ≤ (AddSegment st.assembler seg).fin := by omega
      have hval := hfin1val h0f
      have hdn : st.buffer.size + res.length = D.length := by omega
      refine ⟨_, Handle_eq st seg res true _ hskimeq hwinle, ?_⟩
      have hfin' : (AddSegment st.assembler seg).fin - ((res.length + 1 : Nat) : Int) =
          -1 := by omega
      unfold RecvInv
      refine ⟨?_, ?_, ?_, ?_, ?_, ?_, ?_, ?_, ?_, ?_, ?_⟩
      · show st.buffer.size + res.length ≤ D.length
        omega
      · exact inv2
      · exact ⟨fun _ => hfin', fun _ => rfl⟩
      · intro j hj
        exact hputbuf j hj
      · show u32 ((AddSegment st.assembler seg).sequence + (res.length + 1)) =
          u32 (s0 + (st.buffer.size + res.length) +
            (if (AddSegment st.assembler seg).fin - ((res.length + 1 : Nat) : Int) =
                -1 then 1 else 0))
        rw [if_pos hfin', hsA, hseq, u32_u32_add]
        congr 1
        omega
      · intro i hmi
        exfalso
        have hmi' : (if i + (res.length + 1) < tcpBufferSize then
            (AddSegment st.assembler seg).mask (i + (res.length + 1))
          else false) = true := hmi
        by_cases hlt : i + (res.length + 1) < tcpBufferSize
        · rw [if_pos hlt] at hmi'
          have := hF1 _ hmi'
          omega
        · rw [if_neg hlt] at hmi'
          exact absurd hmi' (by simp)
      · intro hlt'
        exact absurd (show st.buffer.size + res.length < D.length from hlt')
          (by omega)
      · intro _
        show st.buffer.size + res.length = D.length
        omega
      · intro h0
        have h0' : 0 ≤ (AddSegment st.assembler seg).fin -
            ((res.length + 1 : Nat) : Int) := h0
        exact absurd h0' (by omega)
      · intro _
        show (-1 : Int) ≤ (AddSegment st.assembler seg).fin -
          ((res.length + 1 : Nat) : Int)
        omega
      · intro j hj _
        refine Or.inl ?_
        show j < st.buffer.size + res.length
        omega
    · -- the skim stopped at a gap or at the window budget
      subst heof
      have hskimeq : Skim (AddSegment st.assembler seg) (RecvWindow st.buffer : Int) =
          ((res, false),
           { sequence := u32 ((AddSegment st.assembler seg).sequence + res.length),
             buffer := fun i =>
               if i + res.length < tcpBufferSize then
                 (AddSegment st.assembler seg).buffer (i + res.length)
               else (AddSegment st.assembler seg).buffer i,
             mask := fun i =>
               if i + res.length < tcpBufferSize then
                 (AddSegment st.assembler seg).mask (i + res.length)
               else false,
             fin := (AddSegment st.assembler seg).fin -
               ((res.length : Nat) : Int) }) := by
        unfold Skim
        rw [if_neg hfin1ne]
        dsimp only
        rw [hres]
        simp
      have hstop := sk4 rfl
      rw [Nat.zero_add] at hstop
      have hfin1gt : 0 ≤ (AddSegment st.assembler seg).fin →
          ((res.length : Nat) : Int) < (AddSegment st.assembler seg).fin := by
        intro h0
        have hval := hfin1val h0
        have hm : (AddSegment st.assembler seg).fin =
            ((D.length - st.buffer.size : Nat) : Int) := by omega
        by_cases hlt : D.length - st.buffer.size < res.length
        · exact absurd hm.symm (hfinnotin _ hlt)
        · by_cases heq : D.length - st.buffer.size = res.length
          · rcases hstop with h65 | ⟨hne, _⟩
            · have h65' : res.length = 65536 := h65
              omega
            · exfalso
              apply hne
              omega
          · omega
      have hfin'ne : (AddSegment st.assembler seg).fin -
          ((res.length : Nat) : Int) ≠ -1 := by
        have hd2 : 0 ≤ (AddSegment st.assembler seg).fin ∨
            (AddSegment st.assembler seg).fin ≤ -2 := by omega
        rcases hd2 with hge | hle
        · have := hfin1gt hge
          omega
        · omega
      refine ⟨_, Handle_eq st seg res false _ hskimeq hwinle, ?_⟩
      have hOld : st.buffer.hitEOF = false := by
        rcases Bool.eq_false_or_eq_true st.buffer.hitEOF with ht | hf
        · exact absurd (inv3.mp ht) hfin
        · exact hf
      unfold RecvInv
      refine ⟨?_, ?_, ?_, ?_, ?_, ?_, ?_, ?_, ?_, ?_, ?_⟩
      · show st.buffer.size + res.length ≤ D.length
        exact hLn
      · exact inv2
      · constructor
        · intro h
          have h' : st.buffer.hitEOF = true := h
          rw [hOld] at h'
          exact absurd h' (by simp)
        · intro h
          exact absurd h hfin'ne
      · intro j hj
        exact hputbuf j hj
      · show u32 ((AddSegment st.assembler seg).sequence + res.length) =
          u32 (s0 + (st.buffer.size + res.length) +
            (if (AddSegment st.assembler seg).fin - ((res.length : Nat) : Int) =
                -1 then 1 else 0))
        rw [if_neg hfin'ne, hsA, hseq, u32_u32_add]
        congr 1
        omega
      · intro i hmi
        have hmi' : (if i + res.length < tcpBufferSize then
            (AddSegment st.assembler seg).mask (i + res.length)
          else false) = true := hmi
        by_cases hlt : i + res.length < tcpBufferSize
        · rw [if_pos hlt] at hmi'
          obtain ⟨hb1, hb2⟩ := hF1 _ hmi'
          refine ⟨?_, ?_⟩
          · show st.buffer.size + res.length + i < D.length
            omega
          show (if i + res.length < tcpBufferSize then
              (AddSegment st.assembler seg).buffer (i + res.length)
            else (AddSegment st.assembler seg).buffer i) =
            D.getD (st.buffer.size + res.length + i) 0
          rw [if_pos hlt, hb2]
          have harg : st.buffer.size + (i + res.length) =
              st.buffer.size + res.length + i := by omega
          rw [harg]
        · rw [if_neg hlt] at hmi'
          exact absurd hmi' (by simp)
      · intro hlt'
        show (if 0 + res.length < tcpBufferSize then
            (AddSegment st.assembler seg).mask (0 + res.length)
          else false) = false
        rw [Nat.zero_add]
        by_cases h65 : res.length < tcpBufferSize
        · rw [if_pos h65]
          rcases hstop with hfuel | ⟨hne, hor⟩
          · omega
          · rcases hor with hmax | hmk
            · have hW : res.length = bufSize - st.buffer.size := by
                rw [hwinval] at hmax
                omega
              rcases Bool.eq_false_or_eq_true
                  ((AddSegment st.assembler seg).mask res.length) with hm | hm
              · have := hF1 res.length hm
                omega
              · exact hm
            · exact hmk
        · rw [if_neg h65]
      · intro h
        exact absurd h hfin'ne
      · intro h0
        have h0' : 0 ≤ (AddSegment st.assembler seg).fin -
            ((res.length : Nat) : Int) := h0
        have hge : 0 ≤ (AddSegment st.assembler seg).fin := by omega
        have hgt := hfin1gt hge
        have hval := hfin1val hge
        constructor
        · show 1 ≤ (AddSegment st.assembler seg).fin - ((res.length : Nat) : Int)
          omega
        · show (AddSegment st.assembler seg).fin - ((res.length : Nat) : Int) +
            ((st.buffer.size + res.length : Nat) : Int) = (D.length : Int)
          push_cast
          omega
      · intro hex
        have hge := hfin1pos hex
        have hgt := hfin1gt hge
        show (-1 : Int) ≤ (AddSegment st.assembler seg).fin -
          ((res.length : Nat) : Int)
        omega
      · intro j hj hex
        have hjd : j < st.buffer.size ∨
            (AddSegment st.assembler seg).mask (j - st.buffer.size) = true := by
          rcases hex with ⟨s, hs, hcov⟩
          rcases List.mem_append.mp hs with hdone | hsg
          · rcases inv11 j hj ⟨s, hdone, hcov⟩ with hl | hr
            · exact Or.inl hl
            · exact Or.inr (hF2 _ hr)
          · have hseq' : s = seg := by simpa using hsg
            exact hF3 j hj (hseq' ▸ hcov)
        rcases hjd with hl | hmjd
        · refine Or.inl ?_
          show j < st.buffer.size + res.length
          omega
        · by_cases hjl : j < st.buffer.size + res.length
          · exact Or.inl hjl
          · refine Or.inr ?_
            obtain ⟨hb1, _⟩ := hF1 _ hmjd
            show (if (j - (st.buffer.size + res.length)) + res.length <
                tcpBufferSize then
              (AddSegment st.assembler seg).mask
                ((j - (st.buffer.size + res.length)) + res.length)
            else false) = true
            have harg : (j - (st.buffer.size + res.length)) + res.length =
                j - st.buffer.size := by omega
            rw [harg, if_pos (by show j - st.buffer.size < 65536; omega)]
            exact hmjd

theorem recvInv_init (s0 bufSize : Nat) (D : List Nat) (hs0 : s0 < 4294967296) :
    RecvInv s0 D bufSize [] (newSimpleTcpRecv s0 bufSize) := by
  unfold RecvInv newSimpleTcpRecv newTCPAssembler newTCPRecvBuffer
  refine ⟨?_, ?_, ?_, ?_, ?_, ?_, ?_, ?_, ?_, ?_, ?_⟩
  · show 0 ≤ D.length
    omega
  · rfl
  · constructor
    · intro h
      exact absurd h (by simp)
    · intro h
      exact absurd h (by norm_num)
  · intro j hj
    have hj' : j < 0 := hj
    exact absurd hj' (by omega)
  · show s0 = u32 (s0 + 0 + if (-2 : Int) = -1 then 1 else 0)
    rw [if_neg (by norm_num)]
    exact (u32_of_lt hs0).symm
  · intro i hmi
    exact absurd hmi (by simp)
  · intro _
    rfl
  · intro h
    exact absurd h (by norm_num)
  · intro h
    exact absurd h (by norm_num)
  · intro h
    exact absurd h (by simp)
  · intro j hj hex
    exact absurd hex (by simp)

theorem handleAll_inv (s0 bufSize : Nat) (D : List Nat)
    (hs0 : s0 < 4294967296) (hn : D.length < tcpBufferSize)
    (hbufn : D.length ≤ bufSize) :
    ∀ (segs done : List TcpSegment) (st : SimpleTcpRecv),
      RecvInv s0 D bufSize done st →
      (∀ seg ∈ segs, SegWf s0 D seg) →
      ∃ st', handleAll st segs = some st' ∧
        RecvInv s0 D bufSize (done ++ segs) st' := by
  intro segs
  induction segs with
  | nil =>
    intro done st hinv _
    exact ⟨st, rfl, by simpa using hinv⟩
  | cons seg rest ih =>
    intro done st hinv hwf
    obtain ⟨st1, hst1, hinv1⟩ := handle_step s0 bufSize D done st seg hs0 hn hbufn hinv
      (hwf seg (by simp))
    obtain ⟨st', hst', hinv'⟩ := ih (done ++ [seg]) st1 hinv1
      (fun s hs => hwf s (by simp [hs]))
    refine ⟨st', ?_, ?_⟩
    · show handleAll st (seg :: rest) = some st'
      unfold handleAll
      rw [hst1]
      exact hst'
    · have hl : done ++ [seg] ++ rest = done ++ seg :: rest := by simp
      rwa [hl] at hinv'

/-- C3 (amended): for a start sequence `s0 < 2^32` and a stream `D` of
fewer than 65536 bytes that fits the delivery buffer
(`D.length ≤ bufSize`), and any list of segments each of which lies
inside the stream with matching bytes (FIN only at the stream end),
which together cover every stream position and include a FIN: handling
the segments in the given — arbitrary — order succeeds (no `Put`
panic) and a final read of `D.length` bytes returns exactly `D`
together with the EOF flag. -/
theorem tcp_receiver_reassembly (s0 bufSize : Nat) (D : List Nat)
    (segs : List TcpSegment)
    (hs0 : s0 < 4294967296)
    (hn : D.length < tcpBufferSize)
    (hbufn : D.length ≤ bufSize)
    (hwf : ∀ seg ∈ segs, SegWf s0 D seg)
    (hcover : ∀ j, j < D.length → ∃ seg ∈ segs, SegCovers s0 seg j)
    (hfin : ∃ seg ∈ segs, seg.fin = true) :
    ∃ st, handleAll (newSimpleTcpRecv s0 bufSize) segs = some st ∧
      (RecvGet st.buffer D.length).1 = (D, true) := by
  obtain ⟨st, hall, hinv⟩ := handleAll_inv s0 bufSize D hs0 hn hbufn segs []
    (newSimpleTcpRecv s0 bufSize) (recvInv_init s0 bufSize D hs0) hwf
  obtain ⟨inv1, inv2, inv3, inv4, inv5, inv6, inv7, inv8, inv9, inv10, inv11⟩ := hinv
  refine ⟨st, hall, ?_⟩
  have hd : st.buffer.size = D.length := by
    by_contra hne
    have hlt : st.buffer.size < D.length := by omega
    obtain ⟨seg, hsegs, hcov⟩ := hcover st.buffer.size hlt
    rcases inv11 st.buffer.size hlt ⟨seg, hsegs, hcov⟩ with h | h
    · omega
    · rw [Nat.sub_self, inv7 hlt] at h
      exact absurd h (by simp)
  have hfineq : st.assembler.fin = -1 := by
    have h10 := inv10 hfin
    by_contra hne
    have h0 : 0 ≤ st.assembler.fin := by omega
    have := inv9 h0
    omega
  have hEOF : st.buffer.hitEOF = true := inv3.mpr hfineq
  unfold RecvGet
  dsimp only
  rw [hd, Nat.min_self, Nat.sub_self]
  simp only [Prod.mk.injEq]
  refine ⟨?_, by simp [hEOF]⟩
  apply List.ext_getElem
  · simp
  · intro i h1 h2
    simp only [List.getElem_map, List.getElem_range]
    rw [inv4 i (by omega), List.getD_eq_getElem]

/-- C3 (witness): a two-byte stream starting at `0xffffffff` (so the
sequence space wraps), delivered as the FIN-bearing second byte first
and the first byte second, is reassembled to "ab" with EOF. -/
theorem tcp_receiver_reassembly_witness :
    4294967295 < 4294967296 ∧
    ([97, 98] : List Nat).length < tcpBufferSize ∧
    ([97, 98] : List Nat).length ≤ 2 ∧
    (∀ seg ∈ [TcpSegment.mk 0 [98] true, TcpSegment.mk 4294967295 [97] false],
      SegWf 4294967295 [97, 98] seg) ∧
    (∀ j, j < ([97, 98] : List Nat).length →
      ∃ seg ∈ [TcpSegment.mk 0 [98] true, TcpSegment.mk 4294967295 [97] false],
        SegCovers 4294967295 seg j) ∧
    (∃ seg ∈ [TcpSegment.mk 0 [98] true, TcpSegment.mk 4294967295 [97] false],
      seg.fin = true) ∧
    ∃ st, handleAll (newSimpleTcpRecv 4294967295 2)
        [TcpSegment.mk 0 [98] true, TcpSegment.mk 4294967295 [97] false] = some st ∧
      (RecvGet st.buffer ([97, 98] : List Nat).length).1 = ([97, 98], true) :=
  ⟨by decide, by decide, by decide, by decide, by decide, by decide,
   tcp_receiver_reassembly 4294967295 2 [97, 98]
     [TcpSegment.mk 0 [98] true, TcpSegment.mk 4294967295 [97] false]
     (by decide) (by decide) (by decide) (by decide) (by decide) (by decide)⟩

/-- C3 (counterexample to the unamended claim): with a one-byte
delivery buffer, the single segment `{0, "ab", fin}` covers `[0, 2)`
contiguously and ends in a FIN, yet after handling it the reads return
only "a" and then nothing, and EOF is never signalled: the unread
byte is stranded in the assembler because nothing re-skims it, so the
claim needs the delivery buffer to hold the whole stream. -/
theorem tcp_receiver_reassembly_counterexample :
    (handleAll (newSimpleTcpRecv 0 1) [TcpSegment.mk 0 [97, 98] true]).map
        (fun st => ((RecvGet st.buffer 2).1,
          (RecvGet (RecvGet st.buffer 2).2 2).1)) =
      some (([97], false), ([], false)) := by
  decide
